import Mathlib

/-!
Verification of the text-pipeline core of `post-guide.py` (a hexo blog
management script).  Strings are embedded as `List Char`; each Python
regex substitution is embedded as an explicit scanner that mirrors the
regex engine's leftmost, non-overlapping match semantics (lazy and greedy
quantifier behaviour is reproduced by the scanner's search order).
-/

/-- Python's `\s` character class (equivalently `str.isspace`): the exact
finite set of Unicode code points Python treats as whitespace. -/
def pyIsSpace (c : Char) : Bool :=
  decide ((9 ≤ c.toNat ∧ c.toNat ≤ 13) ∨ (28 ≤ c.toNat ∧ c.toNat ≤ 32) ∨
    c.toNat = 133 ∨ c.toNat = 160 ∨ c.toNat = 5760 ∨
    (8192 ≤ c.toNat ∧ c.toNat ≤ 8202) ∨ c.toNat = 8232 ∨ c.toNat = 8233 ∨
    c.toNat = 8239 ∨ c.toNat = 8287 ∨ c.toNat = 12288)

/-- The backtick character (code 96), named to keep source text clean. -/
def btick : Char := Char.ofNat 96

/-- The tilde character (code 126). -/
def tildec : Char := Char.ofNat 126

/-- Does the text start with three copies of `d`?  (Used for the `~~~` and
triple-backtick fence delimiters of `avoid_process_code_blocks`.) -/
def startsWith3 (d : Char) : List Char → Bool
  | a :: b :: e :: _ => a == d && b == d && e == d
  | _ => false

/-- Index of the earliest occurrence of a triple-`d` fence delimiter:
the lazy `[\s\S]*?` in `~~~[\s\S]*?~~~` stops at the first closing fence. -/
def findFenceClose (d : Char) : List Char → Option Nat
  | [] => none
  | c :: rest =>
    if startsWith3 d (c :: rest) then some 0
    else (findFenceClose d rest).map (· + 1)

/-- Index of the earliest occurrence of character `d`. -/
def findChar (d : Char) : List Char → Option Nat
  | [] => none
  | c :: rest => if c == d then some 0 else (findChar d rest).map (· + 1)

/-- Length of a fenced-code-block match `ddd[\s\S]*?ddd` starting at the
current position, if any. -/
def fenceLen (d : Char) (s : List Char) : Option Nat :=
  if startsWith3 d s then (findFenceClose d (s.drop 3)).map (· + 6) else none

/-- Length of an inline-code match `` `[^`]*` `` starting at the current
position, if any: an opening backtick, the shortest run of non-backticks,
and the closing backtick. -/
def inlineLen : List Char → Option Nat
  | c :: rest => if c == btick then (findChar btick rest).map (· + 2) else none
  | [] => none

/-- Length of the code-block match starting at the current position for the
pattern `(~~~[\s\S]*?~~~|```[\s\S]*?```|`[^`]*`)` of
`avoid_process_code_blocks` (the inline alternative is dropped when
`avoid_inline_code` is false).  Alternatives are tried in the pattern's
order, as the regex engine does. -/
def cbMatchLen (avoid_inline_code : Bool) (s : List Char) : Option Nat :=
  match fenceLen tildec s with
  | some n => some n
  | none =>
    match fenceLen btick s with
    | some n => some n
    | none => if avoid_inline_code then inlineLen s else none

/-- A segment of the document: a gap between code-block matches (handed to
`process_func`) or a code-block match (copied verbatim). -/
inductive CbSeg
  | gap : List Char → CbSeg
  | code : List Char → CbSeg
deriving DecidableEq

/-- The raw text of a segment. -/
def CbSeg.text : CbSeg → List Char
  | .gap t => t
  | .code t => t

/-- Rendering of a segment in the output of `avoid_process_code_blocks`:
gaps go through `process_func`, code blocks are kept unchanged. -/
def CbSeg.render (f : List Char → List Char) : CbSeg → List Char
  | .gap t => f t
  | .code t => t

/-- Prepend a character to the leading gap of a segment list (growing the
current gap between matches, as the scan position advances past an
unmatched character). -/
def consGap (c : Char) : List CbSeg → List CbSeg
  | CbSeg.gap t :: rest => CbSeg.gap (c :: t) :: rest
  | segs => CbSeg.gap [c] :: segs

/-- The `finditer` decomposition of `avoid_process_code_blocks`: scan left
to right; at each position the first matching alternative wins and the scan
resumes after the match; unmatched characters accumulate into gaps.  `fuel`
bounds the recursion; `fuel = length` always suffices since every match
consumes at least one character. -/
def splitSegs (avoid_inline_code : Bool) : Nat → List Char → List CbSeg
  | _, [] => []
  | 0, c :: rest => [CbSeg.gap (c :: rest)]
  | fuel + 1, c :: rest =>
    match cbMatchLen avoid_inline_code (c :: rest) with
    | some n =>
      CbSeg.code ((c :: rest).take n) ::
        splitSegs avoid_inline_code fuel ((c :: rest).drop n)
    | none => consGap c (splitSegs avoid_inline_code fuel rest)

/-- The decomposition of a document into code blocks and the (possibly
empty list of) maximal gaps between them. -/
def splitSegments (avoid_inline_code : Bool) (content : List Char) : List CbSeg :=
  splitSegs avoid_inline_code content.length content

/-- `avoid_process_code_blocks`: apply `process_func` to every gap between
code-block matches, keep every code-block match verbatim, and concatenate
the parts in order. -/
def avoid_process_code_blocks (content : List Char)
    (process_func : List Char → List Char) (avoid_inline_code : Bool := true) :
    List Char :=
  ((splitSegments avoid_inline_code content).map (CbSeg.render process_func)).flatten

/-! ### A generic embedding of `re.sub`

`subst m fuel s` scans `s` left to right; at each position the matcher `m`
either produces `some (replacement, rest)` — the replacement text of the
match starting here together with the text after the match — or `none`, in
which case the current character is copied and the scan advances one
character, exactly as `re.sub` looks for the next leftmost match.  Every
matcher below consumes at least one character, so `fuel = length` always
suffices. -/

/-- One pass of global regex substitution (see the section comment). -/
def subst (m : List Char → Option (List Char × List Char)) :
    Nat → List Char → List Char
  | _, [] => []
  | 0, c :: rest => c :: rest
  | fuel + 1, c :: rest =>
    match m (c :: rest) with
    | some (r, rest') => r ++ subst m fuel rest'
    | none => c :: subst m fuel rest

/-- `re.sub` over a whole string. -/
def pySub (m : List Char → Option (List Char × List Char)) (s : List Char) :
    List Char :=
  subst m s.length s

/-! ### `remove_img_path_in_md` -/

/-- The double-quote character (code 34). -/
def dquote : Char := Char.ofNat 34

/-- The single-quote character (code 39). -/
def squote : Char := Char.ofNat 39

/-- Match `([^)]+)\)`: the greedy non-`)` run (which must be nonempty)
followed by the closing parenthesis.  Returns the captured run and the text
after the `)`. -/
def pathMatch (s : List Char) : Option (List Char × List Char) :=
  match s.dropWhile (fun c => !(c == ')')) with
  | d :: rest =>
    if (s.takeWhile (fun c => !(c == ')'))).isEmpty then none
    else if d == ')' then some (s.takeWhile (fun c => !(c == ')')), rest)
    else none
  | [] => none

/-- Match `({img_dir})?([^)]+)\)` (the text standing after `](` in the
Markdown link pattern of `remove_img_path_in_md`).  The optional group is
tried first; if the rest of the pattern fails after it, the engine
backtracks to leaving the group unmatched.  Returns group 3 and the rest. -/
def parenMatch (imgDir : List Char) (s : List Char) :
    Option (List Char × List Char) :=
  if s.take imgDir.length = imgDir then
    match pathMatch (s.drop imgDir.length) with
    | some r => some r
    | none => pathMatch s
  else pathMatch s

/-- Scan for the end of the lazy label group `(.*?)` of
`\[(.*?)\]\(({img_dir})?([^)]+)\)`: at each `]` the engine first tries to
finish the match; on failure the `]` is absorbed into the label and the
scan goes on.  A newline fails the whole match (`.` does not match `\n`).
`acc` is the reversed label read so far. -/
def labelScan (imgDir : List Char) (acc : List Char) :
    List Char → Option (List Char × List Char × List Char)
  | [] => none
  | c :: rest =>
    if c == ']' then
      match rest with
      | r1 :: rest2 =>
        if r1 == '(' then
          match parenMatch imgDir rest2 with
          | some (p, rest') => some (acc.reverse, p, rest')
          | none => labelScan imgDir (c :: acc) rest
        else labelScan imgDir (c :: acc) rest
      | [] => labelScan imgDir (c :: acc) rest
    else if c == '\n' then none
    else labelScan imgDir (c :: acc) rest

/-- Matcher for the Markdown-link rewrite
`\[(.*?)\]\(({img_dir})?([^)]+)\)` → `[{group 1}]({group 3})`. -/
def mdLinkMatch (imgDir : List Char) (s : List Char) :
    Option (List Char × List Char) :=
  match s with
  | c :: rest =>
    if c == '[' then
      match labelScan imgDir [] rest with
      | some (lab, p, rest') =>
        some ('[' :: (lab ++ ']' :: '(' :: (p ++ [')'])), rest')
      | none => none
    else none
  | [] => none

/-- Matcher for the HTML tag rewrite
`<img\s+src=["\x27]{img_dir}([^"\x27]+)["\x27]` → `<img src="{group 1}"`
(the image-directory text is taken literally, as `re.escape` makes it). -/
def htmlImgMatch (imgDir : List Char) (s : List Char) :
    Option (List Char × List Char) :=
  if s.take 4 = ('<' :: 'i' :: 'm' :: 'g' :: []) then
    let t := s.drop 4
    let sp := t.takeWhile pyIsSpace
    if sp.isEmpty then none
    else
      let t2 := t.dropWhile pyIsSpace
      if t2.take 4 = ('s' :: 'r' :: 'c' :: '=' :: []) then
        match t2.drop 4 with
        | q :: u =>
          if q == dquote || q == squote then
            if u.take imgDir.length = imgDir then
              let body := (u.drop imgDir.length).takeWhile
                (fun c => !(c == dquote || c == squote))
              if body.isEmpty then none
              else
                match (u.drop imgDir.length).dropWhile
                    (fun c => !(c == dquote || c == squote)) with
                | q2 :: rest =>
                  if q2 == dquote || q2 == squote then
                    some (('<' :: 'i' :: 'm' :: 'g' :: ' ' :: 's' :: 'r' ::
                      'c' :: '=' :: dquote :: (body ++ [dquote])), rest)
                  else none
                | [] => none
            else none
          else none
        | [] => none
      else none
  else none

/-- The `process_non_code` closure of `remove_img_path_in_md`: the Markdown
link substitution followed by the HTML `<img>` substitution. -/
def stripImgGap (imgDir : List Char) (text : List Char) : List Char :=
  pySub (htmlImgMatch imgDir) (pySub (mdLinkMatch imgDir) text)

/-- `remove_img_path_in_md`: run `process_non_code` on the non-code spans
only (inline code is also protected: `avoid_inline_code` defaults to
true). -/
def remove_img_path_in_md (content : List Char)
    (imgDir : List Char := "img/".toList) : List Char :=
  avoid_process_code_blocks content (stripImgGap imgDir) true

/-! ### `remove_first_level_titles` -/

/-- Try to finish a heading match `.+\n` at the current position: the
greedy `.` run (non-newline characters, at least one) followed by a
newline.  Returns the number of characters consumed. -/
def headTail (t : List Char) : Option Nat :=
  if (t.takeWhile (fun c => !(c == '\n'))).isEmpty then none
  else
    match t.drop (t.takeWhile (fun c => !(c == '\n'))).length with
    | d :: _ =>
      if d == '\n' then some ((t.takeWhile (fun c => !(c == '\n'))).length + 1)
      else none
    | [] => none

/-- Backtracking over the greedy `\s+` of `\n^#\s+.+\n`: try `k`
whitespace characters first (the maximal run), then shorter and shorter
runs down to one.  `t` is the text after `\n#`; returns the total number of
characters of `t` consumed by `\s+.+\n`. -/
def headTry (t : List Char) : Nat → Option Nat
  | 0 => none
  | k + 1 =>
    match headTail (t.drop (k + 1)) with
    | some u => some (k + 1 + u)
    | none => headTry t k

/-- Matcher for the first-level-title pattern `\n^#\s+.+\n` (MULTILINE), a
match being replaced by the empty string.  `^` always holds just after a
`\n`, so the pattern is a newline, `#`, at least one whitespace character
(greedy, possibly spanning newlines), at least one non-newline character
(greedy), and a newline. -/
def headingMatch (s : List Char) : Option (List Char × List Char) :=
  match s with
  | a :: b :: t =>
    if a == '\n' && b == '#' then
      match headTry t (t.takeWhile pyIsSpace).length with
      | some n => some ([], t.drop n)
      | none => none
    else none
  | _ => none

/-- The gap transform of `remove_first_level_titles`. -/
def removeTitlesGap (text : List Char) : List Char :=
  pySub headingMatch text

/-- `remove_first_level_titles`: remove first-level title lines outside
code blocks; here `avoid_inline_code` is false, so only the fence blocks
are protected. -/
def remove_first_level_titles (content : List Char) : List Char :=
  avoid_process_code_blocks content removeTitlesGap false

/-! ### `replace_url_to_card` -/

/-- Python `str.strip()`: drop whitespace from both ends. -/
def pyStrip (s : List Char) : List Char :=
  ((s.dropWhile pyIsSpace).reverse.dropWhile pyIsSpace).reverse

/-- ASCII lowercasing, embedding `str.lower` (exact on ASCII; code points
outside ASCII relevant to this program — CJK — are unchanged by `lower`,
matching this definition). -/
def asciiLower (c : Char) : Char :=
  if 65 ≤ c.toNat ∧ c.toNat ≤ 90 then Char.ofNat (c.toNat + 32) else c

/-- The canonical zhihu icon URL of `icon_url_mapping`. -/
def zhihuIcon : List Char :=
  "https://pic1.zhimg.com/v2-4cd83ae3d6ca76dabecf001244a62310.jpg?source=57bbeac9".toList

/-- The canonical github icon URL of `icon_url_mapping`. -/
def githubIcon : List Char :=
  "https://github.githubassets.com/assets/apple-touch-icon-144x144-b882e354c005.png".toList

/-- The `icon_url_mapping` table of `replace_url_to_card`. -/
def icon_url_mapping : List (List Char × List Char) :=
  [( "知乎".toList, zhihuIcon), ( "zhihu".toList, zhihuIcon),
   ( "github".toList, githubIcon)]

/-- Icon resolution of `replace_url_to_card`: the stripped icon text is
lowercased and, if it is one of the known aliases, replaced by the
canonical icon URL; otherwise it is used verbatim.  (The table's keys are
already lowercase, so Python's `icon_url.lower() in map(str.lower, keys)`
test is a lookup by the lowercased text.) -/
def resolveIcon (icon : List Char) : List Char :=
  match icon_url_mapping.lookup (icon.map asciiLower) with
  | some u => u
  | none => icon

/-- The card directive text
`{% externalLinkCard "{title}" "{url}" "{icon}" %}`. -/
def cardTemplate (title url icon : List Char) : List Char :=
  "\x7b% externalLinkCard \"".toList ++ title ++ "\" \"".toList ++ url ++
    "\" \"".toList ++ icon ++ "\" %\x7d".toList

/-- Scan for the end of the lazy group `([^>]+?)` of `<!--\s([^>]+?)\s-->`:
after at least one non-`>` character, the engine first tries to close with
a whitespace character followed by `-->`; otherwise the current character
(which must not be `>`) is absorbed.  `acc` is the reversed group read so
far; returns the group and the text after `-->`. -/
def cardIconScan (acc : List Char) : List Char → Option (List Char × List Char)
  | [] => none
  | c :: rest =>
    if !acc.isEmpty && pyIsSpace c && rest.take 3 = ('-' :: '-' :: '>' :: []) then
      some (acc.reverse, rest.drop 3)
    else if c == '>' then none
    else cardIconScan (c :: acc) rest

/-- Scan for the end of the lazy DOTALL title group `(.*?)` followed by
`\](`: the title is the (possibly empty) text up to the first `](`; a `]`
not followed by `(` is absorbed into the title, as the engine's
backtracking does.  If `)` is missing later, no later `](` can complete the
match either, so reporting the first `](` is exact.  Returns the title and
the text after `](`. -/
def cardTitleScan (acc : List Char) : List Char → Option (List Char × List Char)
  | [] => none
  | c :: rest =>
    if c == ']' then
      match rest with
      | r1 :: rest2 =>
        if r1 == '(' then some (acc.reverse, rest2)
        else cardTitleScan (c :: acc) rest
      | [] => cardTitleScan (c :: acc) rest
    else cardTitleScan (c :: acc) rest

/-- Match `\n\[(.*?)\]\((.*?)\)` (DOTALL) after the comment: a newline, a
bracketed lazy title (any characters up to the first `](`), and a
parenthesised lazy url (any characters up to the first `)`).  Returns
(title, url, rest). -/
def cardAfterIcon (s : List Char) :
    Option (List Char × List Char × List Char) :=
  match s with
  | a :: b :: t =>
    if a == '\n' && b == '[' then
      match cardTitleScan [] t with
      | some (ttl, u) =>
        let url := u.takeWhile (fun c => !(c == ')'))
        match u.dropWhile (fun c => !(c == ')')) with
        | d :: rest => if d == ')' then some (ttl, url, rest) else none
        | [] => none
      | none => none
    else none
  | _ => none

/-- Matcher for `<!--\s([^>]+?)\s-->\n\[(.*?)\]\((.*?)\)` (DOTALL),
replaced by the card directive built from the stripped groups. -/
def cardMatch (s : List Char) : Option (List Char × List Char) :=
  match s with
  | a :: b :: c1 :: c2 :: c :: t =>
    if a == '<' && b == '!' && c1 == '-' && c2 == '-' && pyIsSpace c then
      match cardIconScan [] t with
      | some (icon, after) =>
        match cardAfterIcon after with
        | some (ttl, url, rest) =>
          some (cardTemplate (pyStrip ttl) (pyStrip url)
            (resolveIcon (pyStrip icon)), rest)
        | none => none
      | none => none
    else none
  | _ => none

/-- `replace_url_to_card`: global substitution over the whole document
(code blocks are not protected here). -/
def replace_url_to_card (content : List Char) : List Char :=
  pySub cardMatch content

/-! ### `title2filename`

The function depends on Python's Unicode tables through `\w` and
`str.lower`.  We embed it parametrically in a word-character predicate
`isWord` (Python's `\w`: alphanumeric in any script, or underscore) and a
character-wise lowercasing `lowerc` (Python's `str.lower`, which is
character-wise outside a handful of exotic multi-character case mappings).
`asciiIsWord`/`asciiLower` below are the exact ASCII fragments of those
tables, used for concrete evaluations. -/

/-- The character class `[\s\-_]` collapsed to a single hyphen by the first
substitution of `title2filename`. -/
def isCollapseChar (c : Char) : Bool :=
  pyIsSpace c || c == '-' || c == '_'

/-- `re.sub(r'[\s\-_]+', '-', ·)`: each maximal run of whitespace, hyphen
or underscore characters becomes one hyphen.  `inRun` records whether the
scan is inside a run whose hyphen was already emitted. -/
def collapseGo : Bool → List Char → List Char
  | _, [] => []
  | inRun, c :: rest =>
    if isCollapseChar c then
      if inRun then collapseGo true rest else '-' :: collapseGo true rest
    else c :: collapseGo false rest

/-- The run-collapsing substitution of `title2filename`. -/
def collapseRuns (s : List Char) : List Char :=
  collapseGo false s

/-- The string computed by `title2filename` before its length checks:
collapse runs, delete every character matching `[^\w\-]`, lowercase. -/
def title2filenameStr (isWord : Char → Bool) (lowerc : Char → Char)
    (title : List Char) : List Char :=
  ((collapseRuns title).filter (fun c => isWord c || c == '-')).map lowerc

/-- Outcome of `title2filename`: the converted name beyond 255 characters
raises (`lengthError`); beyond 64 a single warning is printed and the name
is still returned (`warn`); otherwise the name is returned silently
(`ok`). -/
inductive TitleResult
  | lengthError : TitleResult
  | warn : List Char → TitleResult
  | ok : List Char → TitleResult
deriving DecidableEq

/-- `title2filename` with its length checks. -/
def title2filename (isWord : Char → Bool) (lowerc : Char → Char)
    (title : List Char) : TitleResult :=
  let filename := title2filenameStr isWord lowerc title
  if 255 < filename.length then .lengthError
  else if 64 < filename.length then .warn filename
  else .ok filename

/-- Python's `\w` restricted to ASCII: `[0-9A-Za-z_]` (exact on ASCII). -/
def asciiIsWord (c : Char) : Bool :=
  decide ((48 ≤ c.toNat ∧ c.toNat ≤ 57) ∨ (65 ≤ c.toNat ∧ c.toNat ≤ 90) ∨
    (97 ≤ c.toNat ∧ c.toNat ≤ 122) ∨ c.toNat = 95)

/-- Does the string contain two adjacent hyphens? -/
def hasDoubleHyphen : List Char → Bool
  | c :: d :: rest => (c == '-' && d == '-') || hasDoubleHyphen (d :: rest)
  | _ => false

/-- Does the string contain the two-character sequence `x y`? -/
def hasSub2 (x y : Char) : List Char → Bool
  | c :: d :: rest => (c == x && d == y) || hasSub2 x y (d :: rest)
  | _ => false

/-! ### `change_front_matter` -/

/-- Python `readlines`: split after each newline, keeping the newlines; a
final piece without a newline is kept too; an empty file has no lines. -/
def splitLinesGo (cur : List Char) : List Char → List (List Char)
  | [] => if cur.isEmpty then [] else [cur.reverse]
  | c :: rest =>
    if c == '\n' then (cur.reverse ++ ['\n']) :: splitLinesGo [] rest
    else splitLinesGo (c :: cur) rest

/-- The lines of a file, newlines kept. -/
def splitLines (s : List Char) : List (List Char) :=
  splitLinesGo [] s

/-- The front-matter delimiter line. -/
def delimLine : List Char := "---\n".toList

/-- Take exactly `n` ASCII digits (`\d{n}`); returns them and the rest. -/
def takeDigits : Nat → List Char → Option (List Char × List Char)
  | 0, s => some ([], s)
  | _ + 1, [] => none
  | n + 1, c :: rest =>
    if c.isDigit then (takeDigits n rest).map (fun p => (c :: p.1, p.2))
    else none

/-- Match `date:\s*(\d{4}-\d{2}-\d{2})` at the current position, returning
the year, month and day digit strings. -/
def dateMatchAt (s : List Char) :
    Option (List Char × List Char × List Char) :=
  if s.take 5 = "date:".toList then
    match takeDigits 4 ((s.drop 5).dropWhile pyIsSpace) with
    | some (y, '-' :: t2) =>
      match takeDigits 2 t2 with
      | some (mo, '-' :: t3) =>
        match takeDigits 2 t3 with
        | some (d, _) => some (y, mo, d)
        | none => none
      | _ => none
    | _ => none
  else none

/-- `re.search` for the date pattern: the leftmost position where it
matches. -/
def findDate : List Char → Option (List Char × List Char × List Char)
  | [] => none
  | c :: rest =>
    match dateMatchAt (c :: rest) with
    | some r => some r
    | none => findDate rest

/-- Gregorian leap year, as `datetime` uses. -/
def isLeapYear (y : Nat) : Bool :=
  (y % 4 == 0 && !(y % 100 == 0)) || y % 400 == 0

/-- Days in a month, as `datetime` uses. -/
def daysInMonth (y m : Nat) : Nat :=
  if m = 2 then (if isLeapYear y then 29 else 28)
  else if m = 4 ∨ m = 6 ∨ m = 9 ∨ m = 11 then 30
  else 31

/-- Numeric value of a digit string. -/
def digitsToNat (ds : List Char) : Nat :=
  ds.foldl (fun acc c => acc * 10 + (c.toNat - 48)) 0

/-- `datetime.strptime(·, '%Y-%m-%d')` validation: year at least 1
(`MINYEAR`), month 1–12, day within the month. -/
def validDate (y m d : Nat) : Bool :=
  decide (1 ≤ y ∧ 1 ≤ m ∧ m ≤ 12 ∧ 1 ≤ d ∧ d ≤ daysInMonth y m)

/-- Matcher for `re.sub(r'title:\s*.*', f'title: {title}', ·)`: the literal
`title:`, a greedy whitespace run (which, note, can cross newlines), then
the rest of the line. -/
def titleLineMatch (title : List Char) (s : List Char) :
    Option (List Char × List Char) :=
  if s.take 6 = "title:".toList then
    some ( "title: ".toList ++ title,
      ((s.drop 6).dropWhile pyIsSpace).dropWhile (fun c => !(c == '\n')))
  else none

/-- Matcher for `re.sub(r'cover:\s*.*', f'cover: {cover}', ·)`. -/
def coverLineMatch (cover : List Char) (s : List Char) :
    Option (List Char × List Char) :=
  if s.take 6 = "cover:".toList then
    some ( "cover: ".toList ++ cover,
      ((s.drop 6).dropWhile pyIsSpace).dropWhile (fun c => !(c == '\n')))
  else none

/-- Failures of `change_front_matter` (both raised as `ValueError`): no
closing `---` line, no date field, or a date `strptime` rejects. -/
inductive FmError
  | invalidFrontMatter : FmError
  | dateNotFound : FmError
  | badDate : FmError
deriving DecidableEq

/-- `change_front_matter` as a pure function on the file's text: split into
lines, find the closing `---` line (from index 1 on), re-parse the date
from the front matter, rewrite the `title:` and `cover:` patterns inside
the front matter only, and write front matter and body back.  The
`yyyy/mm` text is the matched year and month digits (`strftime('%Y/%m')`,
exact for years 1000–9999). -/
def change_front_matter (fileContent filename title : List Char) :
    Except FmError (List Char) :=
  let lines := splitLines fileContent
  match (lines.drop 1).findIdx? (fun l => l == delimLine) with
  | none => .error .invalidFrontMatter
  | some j =>
    let fm := (lines.take (j + 2)).flatten
    let content := (lines.drop (j + 2)).flatten
    match findDate fm with
    | none => .error .dateNotFound
    | some (y, mo, d) =>
      if validDate (digitsToNat y) (digitsToNat mo) (digitsToNat d) then
        let cover := y ++ '/' :: (mo ++ '/' :: (filename ++ "/cover.jpg".toList))
        .ok (pySub (coverLineMatch cover) (pySub (titleLineMatch title) fm)
          ++ content)
      else .error .badDate

/-! ### `new_draft`

The filesystem is a small state: whether `source/_posts` exists, the files
and directories inside it, and the draft directories (each a list of named
files).  The external `hexo new post` call is an oracle `gen`: the file
content it creates for a filename, or `none` if it creates nothing;
`genStray` says whether it also leaves a stray same-named directory. -/

structure FS where
  hasSourcePosts : Bool
  sourcePostFiles : List (List Char × List Char)
  sourcePostDirs : List (List Char)
  drafts : List (List Char × List (List Char × List Char))
  auxDirsMade : Bool
deriving DecidableEq

/-- Failures of `new_draft` (each raised and propagated uncaught). -/
inductive DraftErr
  | rootNotFound : DraftErr
  | lengthError : DraftErr
  | alreadyExists : DraftErr
  | postNotFound : DraftErr
  | formatError : FmError → DraftErr
deriving DecidableEq

/-- `new_draft`: check the blog root, make the auxiliary directories,
normalize the title, fail if the draft directory exists, run the generator,
move the generated file into a fresh draft directory, delete the stray
directory, and rewrite the front matter.  Returns the final state and the
error, if any (an error leaves the mutations made before it). -/
def new_draft (isWord : Char → Bool) (lowerc : Char → Char)
    (gen : List Char → Option (List Char)) (genStray : Bool)
    (title : List Char) (fs : FS) : FS × Option DraftErr :=
  if !fs.hasSourcePosts then (fs, some .rootNotFound)
  else
    let fs1 := { fs with auxDirsMade := true }
    match title2filename isWord lowerc title with
    | .lengthError => (fs1, some .lengthError)
    | .warn fn | .ok fn =>
      if (fs1.drafts.lookup fn).isSome then (fs1, some .alreadyExists)
      else
        let fs2 := { fs1 with
          sourcePostFiles :=
            match gen fn with
            | some txt => (fn, txt) :: fs1.sourcePostFiles
            | none => fs1.sourcePostFiles,
          sourcePostDirs :=
            if genStray then fn :: fs1.sourcePostDirs else fs1.sourcePostDirs }
        match fs2.sourcePostFiles.lookup fn with
        | none => (fs2, some .postNotFound)
        | some content =>
          let fs3 := { fs2 with
            sourcePostFiles := fs2.sourcePostFiles.eraseP (fun p => p.1 == fn),
            sourcePostDirs := fs2.sourcePostDirs.filter (fun dd => !(dd == fn)),
            drafts := (fn, [(fn, content)]) :: fs2.drafts }
          match change_front_matter content fn title with
          | .ok c2 => ({ fs3 with drafts := (fn, [(fn, c2)]) :: fs2.drafts }, none)
          | .error e => (fs3, some (.formatError e))

/-- Python's `pat in s`: `pat` occurs as a contiguous substring of `s`. -/
def hasSubstr (pat : List Char) : List Char → Bool
  | [] => pat.isEmpty
  | c :: rest => (List.take pat.length (c :: rest) == pat) || hasSubstr pat rest

/-- Glue newline-free line texts into a single text, a newline after
each. -/
def linesOf (ws : List (List Char)) : List Char :=
  (ws.map (fun w => w ++ ['\n'])).flatten

/-! ## Theorems

### The code-block-aware rewriter (C1, C2) -/

theorem CbSeg.render_id (seg : CbSeg) :
    CbSeg.render (fun t => t) seg = seg.text := by
  cases seg <;> rfl

theorem consGap_text (c : Char) (L : List CbSeg) :
    ((consGap c L).map CbSeg.text).flatten = c :: (L.map CbSeg.text).flatten := by
  cases L with
  | nil => rfl
  | cons h t => cases h <;> simp [consGap, CbSeg.text]

/-- The segment decomposition reconstructs the document. -/
theorem splitSegs_text (a : Bool) (fuel : Nat) : ∀ s : List Char,
    ((splitSegs a fuel s).map CbSeg.text).flatten = s := by
  induction fuel with
  | zero => intro s; cases s <;> simp [splitSegs, CbSeg.text]
  | succ fuel ih =>
    intro s
    cases s with
    | nil => rfl
    | cons c rest =>
      rw [splitSegs]
      cases h : cbMatchLen a (c :: rest) with
      | some n => simp [CbSeg.text, ih]
      | none => rw [consGap_text, ih]

theorem splitSegments_text (a : Bool) (s : List Char) :
    ((splitSegments a s).map CbSeg.text).flatten = s :=
  splitSegs_text a s.length s

theorem startsWith3_short (d : Char) (L : List Char) (h : L.length ≤ 2) :
    startsWith3 d L = false := by
  match L with
  | [] => rfl
  | [_] => rfl
  | [_, _] => rfl
  | _ :: _ :: _ :: _ => simp at h

theorem startsWith3_take (d : Char) (t : List Char) (m : Nat) (h : 3 ≤ m) :
    startsWith3 d (t.take m) = startsWith3 d t := by
  obtain ⟨m', rfl⟩ : ∃ m', m = m' + 3 := ⟨m - 3, by omega⟩
  match t with
  | [] => rfl
  | [_] => rfl
  | [_, _] => rfl
  | _ :: _ :: _ :: _ => rfl

theorem startsWith3_head_ne (d c : Char) (t : List Char) (h : (c == d) = false) :
    startsWith3 d (c :: t) = false := by
  match t with
  | [] => rfl
  | [_] => rfl
  | _ :: _ :: _ => simp [startsWith3, h]

theorem startsWith3_second_ne (d c b : Char) (t : List Char)
    (h : (b == d) = false) : startsWith3 d (c :: b :: t) = false := by
  match t with
  | [] => rfl
  | _ :: _ => simp [startsWith3, h]

theorem findFenceClose_take (d : Char) : ∀ (t : List Char) (j : Nat),
    findFenceClose d t = some j → findFenceClose d (t.take (j + 3)) = some j := by
  intro t
  induction t with
  | nil => intro j h; simp [findFenceClose] at h
  | cons c rest ih =>
    intro j h
    rw [findFenceClose] at h
    split at h
    · cases h
      rw [show (0 + 3) = 3 from rfl, List.take_succ_cons, findFenceClose,
        show c :: rest.take 2 = (c :: rest).take 3 from rfl,
        startsWith3_take d (c :: rest) 3 (by omega)]
      simp_all
    · rename_i hs
      cases hj : findFenceClose d rest with
      | none => rw [hj] at h; simp at h
      | some j' =>
        rw [hj] at h
        simp only [Option.map_some'] at h
        cases h
        rw [show (j' + 1 + 3) = (j' + 3) + 1 from rfl, List.take_succ_cons,
          findFenceClose,
          show c :: rest.take (j' + 3) = (c :: rest).take (j' + 3 + 1) from rfl,
          startsWith3_take d (c :: rest) (j' + 3 + 1) (by omega)]
        rw [if_neg (by simp [hs]), ih j' hj]
        rfl

theorem findFenceClose_len (d : Char) : ∀ (t : List Char) (j : Nat),
    findFenceClose d t = some j → j + 3 ≤ t.length := by
  intro t
  induction t with
  | nil => intro j h; simp [findFenceClose] at h
  | cons c rest ih =>
    intro j h
    rw [findFenceClose] at h
    split at h
    · cases h
      rename_i hs
      match rest with
      | _ :: _ :: _ => simp
      | [] => simp [startsWith3] at hs
      | [_] => simp [startsWith3] at hs
    · cases hj : findFenceClose d rest with
      | none => rw [hj] at h; simp at h
      | some j' =>
        rw [hj] at h
        simp only [Option.map_some'] at h
        cases h
        have := ih j' hj
        simp
        omega

theorem findChar_take (d : Char) : ∀ (t : List Char) (j : Nat),
    findChar d t = some j → findChar d (t.take (j + 1)) = some j := by
  intro t
  induction t with
  | nil => intro j h; simp [findChar] at h
  | cons c rest ih =>
    intro j h
    rw [findChar] at h
    split at h
    · cases h
      rename_i hc
      rw [List.take_succ_cons, findChar, if_pos hc]
    · rename_i hc
      cases hj : findChar d rest with
      | none => rw [hj] at h; simp at h
      | some j' =>
        rw [hj] at h
        simp only [Option.map_some'] at h
        cases h
        rw [show (j' + 1 + 1) = (j' + 1) + 1 from rfl, List.take_succ_cons,
          findChar, if_neg (by simp_all), ih j' hj]
        rfl

theorem findChar_len (d : Char) : ∀ (t : List Char) (j : Nat),
    findChar d t = some j → j < t.length := by
  intro t
  induction t with
  | nil => intro j h; simp [findChar] at h
  | cons c rest ih =>
    intro j h
    rw [findChar] at h
    split at h
    · cases h; simp
    · cases hj : findChar d rest with
      | none => rw [hj] at h; simp at h
      | some j' =>
        rw [hj] at h
        simp only [Option.map_some'] at h
        cases h
        have := ih j' hj
        simp
        omega

theorem findChar_head_ne (d c : Char) (rest : List Char) (j : Nat)
    (h : findChar d (c :: rest) = some (j + 1)) :
    (c == d) = false ∧ findChar d rest = some j := by
  rw [findChar] at h
  split at h
  · cases h
  · rename_i hc
    cases hj : findChar d rest with
    | none => rw [hj] at h; simp at h
    | some j' =>
      rw [hj] at h
      simp only [Option.map_some'] at h
      cases h
      exact ⟨by simp_all, rfl⟩

theorem fenceLen_take (d : Char) (s : List Char) (n : Nat)
    (h : fenceLen d s = some n) : fenceLen d (s.take n) = some n := by
  rw [fenceLen] at h
  split at h
  · rename_i hs
    cases hj : findFenceClose d (s.drop 3) with
    | none => rw [hj] at h; simp at h
    | some j =>
      rw [hj] at h
      simp only [Option.map_some'] at h
      cases h
      rw [fenceLen, if_pos (by rw [startsWith3_take d s (j + 6) (by omega)]; exact hs),
        List.drop_take, show (j + 6) - 3 = j + 3 from rfl, findFenceClose_take d _ j hj]
      rfl
  · cases h

theorem fenceLen_len (d : Char) (s : List Char) (n : Nat)
    (h : fenceLen d s = some n) : 6 ≤ n ∧ n ≤ s.length := by
  rw [fenceLen] at h
  split at h
  · rename_i hs
    cases hj : findFenceClose d (s.drop 3) with
    | none => rw [hj] at h; simp at h
    | some j =>
      rw [hj] at h
      simp only [Option.map_some'] at h
      cases h
      have h1 := findFenceClose_len d _ j hj
      rw [List.length_drop] at h1
      have h3 : 3 ≤ s.length := by
        match s, hs with
        | _ :: _ :: _ :: _, _ => simp
        | [], hs => simp [startsWith3] at hs
        | [_], hs => simp [startsWith3] at hs
        | [_, _], hs => simp [startsWith3] at hs
      omega
  · cases h

theorem inlineLen_take (s : List Char) (n : Nat)
    (h : inlineLen s = some n) : inlineLen (s.take n) = some n := by
  match s with
  | [] => simp [inlineLen] at h
  | c :: rest =>
    rw [inlineLen] at h
    split at h
    · rename_i hc
      cases hj : findChar btick rest with
      | none => rw [hj] at h; simp at h
      | some j =>
        rw [hj] at h
        simp only [Option.map_some'] at h
        cases h
        rw [show (j + 2) = (j + 1) + 1 from rfl, List.take_succ_cons, inlineLen,
          if_pos hc, findChar_take btick rest j hj]
        rfl
    · cases h

theorem inlineLen_len (s : List Char) (n : Nat)
    (h : inlineLen s = some n) : 2 ≤ n ∧ n ≤ s.length := by
  match s with
  | [] => simp [inlineLen] at h
  | c :: rest =>
    rw [inlineLen] at h
    split at h
    · cases hj : findChar btick rest with
      | none => rw [hj] at h; simp at h
      | some j =>
        rw [hj] at h
        simp only [Option.map_some'] at h
        cases h
        have := findChar_len btick rest j hj
        simp
        omega
    · cases h

/-- A code-block match is self-delimiting: the pattern still produces the
same match length on the matched span alone. -/
theorem cbMatchLen_take (a : Bool) (s : List Char) (n : Nat)
    (h : cbMatchLen a s = some n) : cbMatchLen a (s.take n) = some n := by
  rw [cbMatchLen] at h
  cases h1 : fenceLen tildec s with
  | some m =>
    rw [h1] at h
    cases h
    rw [cbMatchLen, fenceLen_take tildec s n h1]
  | none =>
    rw [h1] at h
    cases h2 : fenceLen btick s with
    | some m =>
      rw [h2] at h
      cases h
      have hbt : startsWith3 btick s = true := by
        rw [fenceLen] at h2
        split at h2
        · assumption
        · cases h2
      have hs3 : ∃ b r, s = b :: r ∧ (b == tildec) = false := by
        have hlen : 3 ≤ s.length := by
          by_contra hc
          rw [startsWith3_short btick s (by omega)] at hbt
          cases hbt
        match s, hlen, hbt with
        | b :: c2 :: c3 :: r, _, hbt =>
          simp only [startsWith3, Bool.and_eq_true, beq_iff_eq] at hbt
          exact ⟨b, c2 :: c3 :: r, rfl, by rw [hbt.1.1]; decide⟩
      obtain ⟨b, r, rfl, hbne⟩ := hs3
      have h6 := fenceLen_len btick (b :: r) n h2
      rw [cbMatchLen]
      have ht : fenceLen tildec ((b :: r).take n) = none := by
        rw [fenceLen, if_neg]
        rw [startsWith3_take tildec (b :: r) n (by omega)]
        simp [startsWith3_head_ne tildec b r hbne]
      rw [ht, fenceLen_take btick (b :: r) n h2]
    | none =>
      rw [h2] at h
      dsimp only at h
      cases a with
      | false => simp at h
      | true =>
        rw [if_pos rfl] at h
        match s, h with
        | [], h => simp [inlineLen] at h
        | c :: rest, h =>
          rw [inlineLen] at h
          split at h
          · rename_i hc
            cases hj : findChar btick rest with
            | none => rw [hj] at h; simp at h
            | some j =>
              rw [hj] at h
              simp only [Option.map_some'] at h
              cases h
              have hcb : c = btick := by simpa using hc
              have htake : (c :: rest).take (j + 2) = c :: rest.take (j + 1) := rfl
              have hne : startsWith3 btick (c :: rest.take (j + 1)) = false := by
                cases j with
                | zero =>
                  match rest, hj with
                  | r0 :: rest', hj =>
                    exact startsWith3_short btick (c :: (r0 :: rest').take 1) (by simp)
                | succ j' =>
                  match rest, hj with
                  | r0 :: rest', hj =>
                    obtain ⟨hr0, hj'⟩ := findChar_head_ne btick r0 rest' j' hj
                    rw [show (j' + 1 + 1) = j' + 2 from rfl, List.take_succ_cons]
                    exact startsWith3_second_ne btick c r0 _ hr0
              have hft : fenceLen tildec ((c :: rest).take (j + 2)) = none := by
                rw [htake, fenceLen,
                  if_neg (by rw [startsWith3_head_ne tildec c _ (by rw [hcb]; decide)]; simp)]
              have hfb : fenceLen btick ((c :: rest).take (j + 2)) = none := by
                rw [htake, fenceLen, if_neg (by rw [hne]; simp)]
              have hil : inlineLen ((c :: rest).take (j + 2)) = some (j + 2) := by
                rw [htake, inlineLen, if_pos hc, findChar_take btick rest j hj]
                rfl
              rw [cbMatchLen, hft, hfb, hil]
              rfl
          · cases h

/-- Bounds of a code-block match: nonempty and within the text. -/
theorem cbMatchLen_len (a : Bool) (s : List Char) (n : Nat)
    (h : cbMatchLen a s = some n) : 1 ≤ n ∧ n ≤ s.length := by
  rw [cbMatchLen] at h
  cases h1 : fenceLen tildec s with
  | some m =>
    rw [h1] at h; cases h
    have := fenceLen_len tildec s n h1
    omega
  | none =>
    rw [h1] at h
    cases h2 : fenceLen btick s with
    | some m =>
      rw [h2] at h; cases h
      have := fenceLen_len btick s n h2
      omega
    | none =>
      rw [h2] at h
      dsimp only at h
      cases a with
      | false => simp at h
      | true =>
        rw [if_pos rfl] at h
        have := inlineLen_len s n h
        omega

theorem consGap_code_mem (c : Char) (L : List CbSeg) (t : List Char)
    (h : CbSeg.code t ∈ consGap c L) : CbSeg.code t ∈ L := by
  match L, h with
  | [], h => simp [consGap] at h
  | CbSeg.gap u :: rest, h =>
    simp only [consGap] at h
    rcases List.mem_cons.mp h with h | h
    · cases h
    · exact List.mem_cons_of_mem _ h
  | CbSeg.code u :: rest, h =>
    simp only [consGap] at h
    rcases List.mem_cons.mp h with h | h
    · cases h
    · exact h

/-- Every code segment of the decomposition is a take-span of a suffix on
which the pattern matched with exactly that length. -/
theorem splitSegs_code (a : Bool) (fuel : Nat) : ∀ s t : List Char,
    CbSeg.code t ∈ splitSegs a fuel s →
    ∃ s' n, cbMatchLen a s' = some n ∧ t = s'.take n := by
  induction fuel with
  | zero =>
    intro s t h
    cases s with
    | nil => simp [splitSegs] at h
    | cons c rest =>
      simp only [splitSegs] at h
      rcases List.mem_singleton.mp h with h
      cases h
  | succ fuel ih =>
    intro s t h
    cases s with
    | nil => simp [splitSegs] at h
    | cons c rest =>
      rw [splitSegs] at h
      split at h
      · rename_i n hn
        rcases List.mem_cons.mp h with h | h
        · cases h
          exact ⟨c :: rest, n, hn, rfl⟩
        · exact ih _ t h
      · exact ih rest t (consGap_code_mem c _ t h)

/-- C1: applying the code-block-aware rewriter with the identity transform
returns the original document unchanged, for any input (including the empty
string, pure code, and mixed content) and for either value of the
`avoid_inline_code` flag. -/
theorem C1_rewriter_identity (s : List Char) (avoid_inline_code : Bool) :
    avoid_process_code_blocks s (fun t => t) avoid_inline_code = s := by
  unfold avoid_process_code_blocks
  rw [show (CbSeg.render fun t => t) = CbSeg.text from funext CbSeg.render_id]
  exact splitSegments_text avoid_inline_code s

/-- C2: the output of `avoid_process_code_blocks` is the concatenation, in
original left-to-right order, of the transform applied to the gaps and of
the code-block matches copied verbatim: the segment decomposition
concatenates back to the original document, the output renders that
decomposition in order, and every code segment is kept unchanged and is a
genuine self-delimiting match of the code-block pattern. -/
theorem C2_rewriter_segments (s : List Char) (f : List Char → List Char)
    (avoid_inline_code : Bool) :
    avoid_process_code_blocks s f avoid_inline_code
        = ((splitSegments avoid_inline_code s).map (CbSeg.render f)).flatten
      ∧ ((splitSegments avoid_inline_code s).map CbSeg.text).flatten = s
      ∧ ∀ t : List Char, CbSeg.code t ∈ splitSegments avoid_inline_code s →
          CbSeg.render f (CbSeg.code t) = t
            ∧ cbMatchLen avoid_inline_code t = some t.length := by
  refine ⟨rfl, splitSegments_text avoid_inline_code s, ?_⟩
  intro t ht
  obtain ⟨s', n, hm, rfl⟩ := splitSegs_code avoid_inline_code s.length s t ht
  have hlen := cbMatchLen_len avoid_inline_code s' n hm
  have hl : (s'.take n).length = n := by
    rw [List.length_take]
    omega
  refine ⟨rfl, ?_⟩
  rw [hl]
  exact cbMatchLen_take avoid_inline_code s' n hm

/-! ### `title2filename` (C3, C4, C10) -/

theorem toNat_ofNat_small (n : Nat) (h : n < 55296) : (Char.ofNat n).toNat = n := by
  simp [Char.ofNat, Char.ofNatAux, Nat.isValidChar, h, Char.toNat, UInt32.toNat,
    BitVec.toNat_ofNatLt]

theorem char_toNat_inj (c d : Char) (h : c.toNat = d.toNat) : c = d := by
  have h1 := Char.ofNat_toNat c
  have h2 := Char.ofNat_toNat d
  rw [← h1, ← h2, h]

theorem beq_char_iff_toNat (c d : Char) : (c == d) = decide (c.toNat = d.toNat) := by
  by_cases h : c = d
  · subst h; simp
  · have hne : ¬(c.toNat = d.toNat) := fun hc => h (char_toNat_inj c d hc)
    simp [h, hne]

theorem asciiLower_toNat (c : Char) :
    (asciiLower c).toNat =
      if 65 ≤ c.toNat ∧ c.toNat ≤ 90 then c.toNat + 32 else c.toNat := by
  unfold asciiLower
  split
  · rename_i h
    exact toNat_ofNat_small _ (by omega)
  · rfl

theorem asciiLower_word (c : Char) (h : asciiIsWord c = true) :
    asciiIsWord (asciiLower c) = true := by
  simp only [asciiIsWord, decide_eq_true_eq] at h ⊢
  rw [asciiLower_toNat]
  split <;> omega

theorem asciiLower_not_space (c : Char) (h : asciiIsWord c = true) :
    pyIsSpace (asciiLower c) = false := by
  simp only [asciiIsWord, decide_eq_true_eq] at h
  simp only [pyIsSpace, decide_eq_false_iff_not]
  rw [asciiLower_toNat]
  split <;> omega

theorem asciiLower_not_upper (c : Char) :
    ¬(65 ≤ (asciiLower c).toNat ∧ (asciiLower c).toNat ≤ 90) := by
  rw [asciiLower_toNat]
  split <;> omega

theorem asciiLower_hyphen : asciiLower '-' = '-' := by decide

theorem asciiLower_idem (c : Char) : asciiLower (asciiLower c) = asciiLower c := by
  have h := asciiLower_not_upper c
  conv_lhs => rw [asciiLower]
  rw [if_neg h]

theorem isCollapseChar_toNat (c : Char) :
    isCollapseChar c = (pyIsSpace c || decide (c.toNat = 45) || decide (c.toNat = 95)) := by
  rw [isCollapseChar, beq_char_iff_toNat c '-', beq_char_iff_toNat c '_']
  rfl

theorem asciiLower_not_collapse (c : Char) (h1 : asciiIsWord c = true)
    (h2 : isCollapseChar c = false) : isCollapseChar (asciiLower c) = false := by
  simp only [asciiIsWord, decide_eq_true_eq] at h1
  rw [isCollapseChar_toNat] at h2 ⊢
  simp only [pyIsSpace, Bool.or_eq_false_iff, decide_eq_false_iff_not] at h2 ⊢
  rw [asciiLower_toNat]
  split <;> omega

/-- C4: the length policy of `title2filename`: a normalized name of length
at most 64 is returned silently; one longer than 64 but at most 255 is
returned with the (single) warning; one longer than 255 raises the length
error and no name is returned. -/
theorem C4_length_policy (isWord : Char → Bool) (lowerc : Char → Char)
    (title : List Char) :
    ((title2filenameStr isWord lowerc title).length ≤ 64 →
      title2filename isWord lowerc title
        = .ok (title2filenameStr isWord lowerc title))
    ∧ (64 < (title2filenameStr isWord lowerc title).length →
        (title2filenameStr isWord lowerc title).length ≤ 255 →
      title2filename isWord lowerc title
        = .warn (title2filenameStr isWord lowerc title))
    ∧ (255 < (title2filenameStr isWord lowerc title).length →
      title2filename isWord lowerc title = .lengthError) := by
  refine ⟨fun h1 => ?_, fun h1 h2 => ?_, fun h1 => ?_⟩ <;>
    simp only [title2filename] <;> split_ifs <;> first | rfl | omega

set_option maxRecDepth 40000 in
/-- C4 witness: a short, a medium and an overlong title hit the three
branches. -/
theorem C4_length_policy_witness :
    title2filename asciiIsWord asciiLower (List.replicate 10 'a')
        = .ok (List.replicate 10 'a')
    ∧ title2filename asciiIsWord asciiLower (List.replicate 65 'a')
        = .warn (List.replicate 65 'a')
    ∧ title2filename asciiIsWord asciiLower (List.replicate 256 'a')
        = .lengthError := by
  refine ⟨?_, ?_, ?_⟩
  · have h := (C4_length_policy asciiIsWord asciiLower (List.replicate 10 'a')).1
      (by decide)
    rw [h]
    decide
  · have h := (C4_length_policy asciiIsWord asciiLower (List.replicate 65 'a')).2.1
      (by decide) (by decide)
    rw [h]
    decide
  · exact (C4_length_policy asciiIsWord asciiLower (List.replicate 256 'a')).2.2
      (by decide)

/-- C10: every character of a filename computed by `title2filename` is a
word character or a hyphen; in particular none is whitespace and none is an
uppercase ASCII letter.  The hypotheses are facts of Python's Unicode
tables: lowercasing preserves word characters, never produces whitespace
from a word character, fixes the hyphen, and never produces an uppercase
ASCII letter. -/
theorem C10_filename_charset (isWord : Char → Bool) (lowerc : Char → Char)
    (hword : ∀ c, isWord c = true → isWord (lowerc c) = true)
    (hspace : ∀ c, isWord c = true → pyIsSpace (lowerc c) = false)
    (hhyph : lowerc '-' = '-')
    (hupper : ∀ c, ¬(65 ≤ (lowerc c).toNat ∧ (lowerc c).toNat ≤ 90))
    (title : List Char) :
    ∀ c ∈ title2filenameStr isWord lowerc title,
      (isWord c = true ∨ c = '-') ∧ pyIsSpace c = false ∧
        ¬(65 ≤ c.toNat ∧ c.toNat ≤ 90) := by
  intro c hc
  unfold title2filenameStr at hc
  rw [List.mem_map] at hc
  obtain ⟨x, hx, rfl⟩ := hc
  rw [List.mem_filter] at hx
  obtain ⟨-, hx2⟩ := hx
  rcases Bool.or_eq_true_iff.mp hx2 with hw | hd
  · exact ⟨Or.inl (hword x hw), hspace x hw, hupper x⟩
  · have hxe : x = '-' := by simpa using hd
    subst hxe
    rw [hhyph]
    exact ⟨Or.inr rfl, by decide, by decide⟩

/-- C10 witness: a character of the filename computed for a concrete title
has the three properties. -/
theorem C10_filename_charset_witness :
    'h' ∈ title2filenameStr asciiIsWord asciiLower ( "Hello World".toList)
    ∧ (asciiIsWord 'h' = true ∨ 'h' = '-') ∧ pyIsSpace 'h' = false ∧
        ¬(65 ≤ 'h'.toNat ∧ 'h'.toNat ≤ 90) :=
  ⟨by decide,
    C10_filename_charset asciiIsWord asciiLower asciiLower_word
      asciiLower_not_space asciiLower_hyphen asciiLower_not_upper
      ( "Hello World".toList) 'h' (by decide)⟩

/-- C3 counterexample: `title2filename` is not idempotent.  For the title
`a-!-b` the first pass keeps the two isolated hyphens and deletes the `!`,
leaving the adjacent pair `--` in `a--b`; a second pass collapses that pair,
giving `a-b`. -/
theorem C3_counterexample :
    title2filenameStr asciiIsWord asciiLower ( "a-!-b".toList) = ( "a--b".toList)
    ∧ title2filenameStr asciiIsWord asciiLower ( "a--b".toList) = ( "a-b".toList)
    ∧ title2filenameStr asciiIsWord asciiLower
        (title2filenameStr asciiIsWord asciiLower ( "a-!-b".toList))
      ≠ title2filenameStr asciiIsWord asciiLower ( "a-!-b".toList) := by
  refine ⟨by decide, by decide, by decide⟩

theorem collapseGo_chars (c : Char) : ∀ (b : Bool) (s : List Char),
    c ∈ collapseGo b s → c = '-' ∨ isCollapseChar c = false := by
  intro b s
  induction s generalizing b with
  | nil => intro h; simp [collapseGo] at h
  | cons d rest ih =>
    intro h
    rw [collapseGo] at h
    split at h
    · split at h
      · exact ih true h
      · rcases List.mem_cons.mp h with h | h
        · exact Or.inl h
        · exact ih true h
    · rcases List.mem_cons.mp h with h | h
      · subst h
        rename_i hd
        exact Or.inr (by simpa using hd)
      · exact ih false h

theorem hasDoubleHyphen_tail (x : Char) (t : List Char)
    (h : hasDoubleHyphen (x :: t) = false) : hasDoubleHyphen t = false := by
  match t with
  | [] => rfl
  | d :: r =>
    rw [hasDoubleHyphen] at h
    exact (Bool.or_eq_false_iff.mp h).2

theorem collapseGo_fix_aux : ∀ (n : Nat) (s : List Char), s.length ≤ n →
    (∀ c ∈ s, isCollapseChar c = true → c = '-') →
    hasDoubleHyphen s = false → collapseGo false s = s := by
  intro n
  induction n with
  | zero =>
    intro s hs _ _
    match s, hs with
    | [], _ => rfl
  | succ n ih =>
    intro s hs h1 h2
    match s with
    | [] => rfl
    | c :: rest =>
      by_cases hc : isCollapseChar c = true
      · have hce : c = '-' := h1 c (List.mem_cons_self c rest) hc
        match rest with
        | [] => simp [collapseGo, hc, hce]
        | d :: rest' =>
          have hd : isCollapseChar d = false := by
            by_contra hdc
            have hde : d = '-' := h1 d (by simp) (by simpa using hdc)
            rw [hce, hde, hasDoubleHyphen] at h2
            simp at h2
          have hrec : collapseGo false rest' = rest' := by
            refine ih rest' (by simp at hs ⊢; omega) ?_ ?_
            · intro x hx hxc
              exact h1 x (by simp [hx]) hxc
            · exact hasDoubleHyphen_tail d rest'
                (hasDoubleHyphen_tail c (d :: rest') h2)
          simp [collapseGo, hc, hd, hrec, hce]
      · have hrec : collapseGo false rest = rest := by
          refine ih rest (by simp at hs ⊢; omega) ?_ ?_
          · intro x hx hxc
            exact h1 x (by simp [hx]) hxc
          · exact hasDoubleHyphen_tail c rest h2
        simp [collapseGo, hc, hrec]

/-- A string whose only collapse-class characters are isolated hyphens is a
fixed point of the run-collapsing substitution. -/
theorem collapseGo_fix (s : List Char)
    (h1 : ∀ c ∈ s, isCollapseChar c = true → c = '-')
    (h2 : hasDoubleHyphen s = false) : collapseGo false s = s :=
  collapseGo_fix_aux s.length s (le_refl _) h1 h2

/-- C3 amended: `title2filename` is idempotent on every title whose
normalized form contains no two adjacent hyphens (the counterexample shows
adjacent hyphens — which arise when deleted characters separated two
hyphen runs — are re-collapsed by a second pass).  The hypotheses are facts
of Python's Unicode tables: lowercasing preserves word characters, maps a
word character that is not whitespace/hyphen/underscore to no such
character, fixes the hyphen, and is idempotent. -/
theorem C3_idempotent_amended (isWord : Char → Bool) (lowerc : Char → Char)
    (hword : ∀ c, isWord c = true → isWord (lowerc c) = true)
    (hcol : ∀ c, isWord c = true → isCollapseChar c = false →
      isCollapseChar (lowerc c) = false)
    (hhyph : lowerc '-' = '-')
    (hidem : ∀ c, lowerc (lowerc c) = lowerc c)
    (title : List Char)
    (hnd : hasDoubleHyphen (title2filenameStr isWord lowerc title) = false) :
    title2filenameStr isWord lowerc (title2filenameStr isWord lowerc title)
      = title2filenameStr isWord lowerc title := by
  have hmem : ∀ c ∈ title2filenameStr isWord lowerc title,
      ∃ x, c = lowerc x ∧ (isWord x = true ∨ x = '-') ∧
        (x = '-' ∨ isCollapseChar x = false) := by
    intro c hc
    unfold title2filenameStr at hc
    rw [List.mem_map] at hc
    obtain ⟨x, hx, rfl⟩ := hc
    rw [List.mem_filter] at hx
    obtain ⟨hx1, hx2⟩ := hx
    refine ⟨x, rfl, ?_, collapseGo_chars x false title hx1⟩
    rcases Bool.or_eq_true_iff.mp hx2 with hw | hd
    · exact Or.inl hw
    · exact Or.inr (by simpa using hd)
  have hchar : ∀ c ∈ title2filenameStr isWord lowerc title,
      (isWord c = true ∨ c = '-') ∧ (isCollapseChar c = true → c = '-') := by
    intro c hc
    obtain ⟨x, rfl, hp, hq⟩ := hmem c hc
    rcases hp with hw | hd
    · rcases hq with hd | hnc
      · subst hd
        rw [hhyph]
        exact ⟨Or.inr rfl, fun _ => rfl⟩
      · exact ⟨Or.inl (hword x hw), fun hcc => absurd hcc (by simp [hcol x hw hnc])⟩
    · subst hd
      rw [hhyph]
      exact ⟨Or.inr rfl, fun _ => rfl⟩
  conv_lhs => rw [title2filenameStr]
  rw [show collapseRuns (title2filenameStr isWord lowerc title)
      = title2filenameStr isWord lowerc title from
    collapseGo_fix _ (fun c hc => (hchar c hc).2) hnd]
  rw [List.filter_eq_self.mpr (fun c hc => by
    rcases (hchar c hc).1 with hw | hd
    · simp [hw]
    · simp [hd])]
  unfold title2filenameStr
  rw [List.map_map]
  exact List.map_congr_left (fun x _ => hidem x)

/-- C3 witness: a title whose normalized form has no adjacent hyphens is a
fixed point after one pass. -/
theorem C3_idempotent_witness :
    hasDoubleHyphen (title2filenameStr asciiIsWord asciiLower
        ( "Hello World".toList)) = false
    ∧ title2filenameStr asciiIsWord asciiLower
        (title2filenameStr asciiIsWord asciiLower ( "Hello World".toList))
      = title2filenameStr asciiIsWord asciiLower ( "Hello World".toList) :=
  ⟨by decide,
    C3_idempotent_amended asciiIsWord asciiLower asciiLower_word
      asciiLower_not_collapse asciiLower_hyphen asciiLower_idem
      ( "Hello World".toList) (by decide)⟩

/-! ### Generic lemmas about the `re.sub` scanner -/

theorem subst_zero (m : List Char → Option (List Char × List Char))
    (s : List Char) : subst m 0 s = s := by
  cases s <;> rfl

theorem subst_congr (m : List Char → Option (List Char × List Char))
    (shrink : ∀ s r rest', m s = some (r, rest') → rest'.length < s.length) :
    ∀ (fuel1 fuel2 : Nat) (s : List Char), s.length ≤ fuel1 →
      s.length ≤ fuel2 → subst m fuel1 s = subst m fuel2 s := by
  intro fuel1
  induction fuel1 with
  | zero =>
    intro fuel2 s h1 _
    match s, h1 with
    | [], _ => cases fuel2 <;> rfl
  | succ fuel1 ih =>
    intro fuel2 s h1 h2
    match s with
    | [] => cases fuel2 <;> rfl
    | c :: rest =>
      match fuel2 with
      | 0 => simp at h2
      | fuel2 + 1 =>
        rw [subst, subst]
        cases hm : m (c :: rest) with
        | some p =>
          obtain ⟨r, rest'⟩ := p
          have hsh := shrink _ r rest' hm
          dsimp only
          rw [ih fuel2 rest' (by simp at h1 hsh; omega) (by simp at h2 hsh; omega)]
        | none =>
          dsimp only
          rw [ih fuel2 rest (by simp at h1; omega) (by simp at h2; omega)]

theorem subst_append_none (m : List Char → Option (List Char × List Char)) :
    ∀ (a : List Char) (fuel : Nat) (s : List Char),
      (∀ i, i < a.length → m (a.drop i ++ s) = none) →
      subst m fuel (a ++ s) = a ++ subst m (fuel - a.length) s := by
  intro a
  induction a with
  | nil => intro fuel s _; rfl
  | cons c a' ih =>
    intro fuel s h
    match fuel with
    | 0 => rw [subst_zero, Nat.sub_eq_zero_of_le (by simp), subst_zero]
    | fuel + 1 =>
      have h0 := h 0 (by simp)
      rw [List.drop_zero, List.cons_append] at h0
      rw [List.cons_append, subst, h0]
      dsimp only
      rw [ih fuel s (fun i hi => h (i + 1) (by simp; omega))]
      rw [show (fuel + 1) - (c :: a').length = fuel - a'.length from by
        simp [Nat.succ_sub_succ]]
      rfl

/-- If the matcher matches nowhere in the text, the substitution is the
identity. -/
theorem pySub_id (m : List Char → Option (List Char × List Char))
    (s : List Char) (h : ∀ i, i < s.length → m (s.drop i) = none) :
    pySub m s = s := by
  unfold pySub
  have hs := subst_append_none m s s.length []
    (fun i hi => by rw [List.append_nil]; exact h i hi)
  rw [List.append_nil] at hs
  rw [hs, show subst m (s.length - s.length) [] = [] from by
    cases (s.length - s.length) <;> rfl, List.append_nil]

/-- The scanner copies a match-free region verbatim, replaces the match
that follows it, and goes on after the match: one step of the leftmost,
non-overlapping global substitution. -/
theorem pySub_decomp (m : List Char → Option (List Char × List Char))
    (shrink : ∀ s r rest', m s = some (r, rest') → rest'.length < s.length)
    (a b r rest' : List Char)
    (ha : ∀ i, i < a.length → m (a.drop i ++ b) = none)
    (hb : m b = some (r, rest')) :
    pySub m (a ++ b) = a ++ (r ++ pySub m rest') := by
  unfold pySub
  rw [subst_append_none m a (a ++ b).length b ha]
  congr 1
  match b, hb with
  | [], hb => exact absurd (shrink _ r rest' hb) (by simp)
  | c :: t, hb =>
    rw [show (a ++ c :: t).length - a.length = t.length + 1 from by simp]
    rw [subst, hb]
    dsimp only
    congr 1
    have hsh := shrink _ r rest' hb
    show subst m t.length rest' = subst m rest'.length rest'
    exact subst_congr m shrink t.length rest'.length rest'
      (by simp at hsh; omega) (le_refl _)

/-! ### `remove_img_path_in_md` (C6) -/

theorem takeWhile_append_all (p : Char → Bool) (r s : List Char)
    (h : ∀ c ∈ r, p c = true) :
    (r ++ s).takeWhile p = r ++ s.takeWhile p := by
  induction r with
  | nil => rfl
  | cons c r' ih =>
    rw [List.cons_append, List.takeWhile_cons, if_pos (h c (by simp)),
      ih (fun c hc => h c (by simp [hc]))]
    rfl

theorem dropWhile_append_all (p : Char → Bool) (r s : List Char)
    (h : ∀ c ∈ r, p c = true) :
    (r ++ s).dropWhile p = s.dropWhile p := by
  induction r with
  | nil => rfl
  | cons c r' ih =>
    rw [List.cons_append, List.dropWhile_cons, if_pos (h c (by simp)),
      ih (fun c hc => h c (by simp [hc]))]

theorem pathMatch_run (r rest0 : List Char) (hne : r ≠ [])
    (hr : ∀ c ∈ r, c ≠ ')') :
    pathMatch (r ++ ')' :: rest0) = some (r, rest0) := by
  have hall : ∀ c ∈ r, (fun c => !(c == ')')) c = true := by
    intro c hc
    simp [hr c hc]
  have hdw : (r ++ ')' :: rest0).dropWhile (fun c => !(c == ')')) = ')' :: rest0 := by
    rw [dropWhile_append_all _ r _ hall]
    simp
  have htw : (r ++ ')' :: rest0).takeWhile (fun c => !(c == ')')) = r := by
    rw [takeWhile_append_all _ r _ hall]
    simp
  unfold pathMatch
  rw [hdw, htw]
  dsimp only
  rw [if_neg (by simp [hne]), if_pos (by simp)]

theorem pathMatch_shrink (s t rest : List Char)
    (h : pathMatch s = some (t, rest)) : rest.length < s.length := by
  unfold pathMatch at h
  cases hdw : s.dropWhile (fun c => !(c == ')')) with
  | nil =>
    rw [hdw] at h
    cases h
  | cons d rest' =>
    rw [hdw] at h
    dsimp only at h
    split at h
    · cases h
    · split at h
      · simp only [Option.some.injEq, Prod.mk.injEq] at h
        obtain ⟨-, hrest⟩ := h
        subst hrest
        have hlen := congrArg List.length
          (List.takeWhile_append_dropWhile (p := fun c => !(c == ')')) (l := s))
        rw [hdw] at hlen
        simp at hlen
        omega
      · cases h

theorem parenMatch_shrink (imgDir s p rest : List Char)
    (h : parenMatch imgDir s = some (p, rest)) : rest.length < s.length := by
  unfold parenMatch at h
  have hd : (s.drop imgDir.length).length ≤ s.length := by simp
  split at h
  · cases hp : pathMatch (s.drop imgDir.length) with
    | some q =>
      obtain ⟨p1, r1⟩ := q
      rw [hp] at h
      dsimp only at h
      cases h
      have h1 := pathMatch_shrink _ _ _ hp
      omega
    | none =>
      rw [hp] at h
      dsimp only at h
      exact pathMatch_shrink s p rest h
  · exact pathMatch_shrink s p rest h

theorem labelScan_shrink (imgDir : List Char) : ∀ (t acc lab p rest' : List Char),
    labelScan imgDir acc t = some (lab, p, rest') → rest'.length < t.length := by
  intro t
  induction t with
  | nil => intro acc lab p rest' h; simp [labelScan] at h
  | cons c rest ih =>
    intro acc lab p rest' h
    rw [labelScan.eq_def] at h
    dsimp only at h
    split at h
    · cases rest with
      | nil => simp [labelScan] at h
      | cons r1 rest2 =>
        dsimp only at h
        split at h
        · cases hp : parenMatch imgDir rest2 with
          | some q =>
            obtain ⟨pp, rr⟩ := q
            rw [hp] at h
            dsimp only at h
            cases h
            have h1 := parenMatch_shrink imgDir rest2 _ _ hp
            simp
            omega
          | none =>
            rw [hp] at h
            dsimp only at h
            have h1 := ih _ _ _ _ h
            simp at h1 ⊢
            omega
        · have h1 := ih _ _ _ _ h
          simp at h1 ⊢
          omega
    · split at h
      · cases h
      · have h1 := ih _ _ _ _ h
        simp at h1 ⊢
        omega

theorem mdLinkMatch_shrink (imgDir : List Char) (s r rest' : List Char)
    (h : mdLinkMatch imgDir s = some (r, rest')) : rest'.length < s.length := by
  match s, h with
  | [], h => simp [mdLinkMatch] at h
  | c :: rest, h =>
    rw [mdLinkMatch] at h
    split at h
    · cases hl : labelScan imgDir [] rest with
      | some q =>
        obtain ⟨lab, pp, rest2⟩ := q
        rw [hl] at h
        dsimp only at h
        cases h
        have h1 := labelScan_shrink imgDir rest [] _ _ _ hl
        simp
        omega
      | none =>
        rw [hl] at h
        cases h
    · cases h

theorem labelScan_clean (imgDir : List Char) : ∀ (l acc u p rest' : List Char),
    (∀ c ∈ l, c ≠ ']' ∧ c ≠ '\n') → parenMatch imgDir u = some (p, rest') →
    labelScan imgDir acc (l ++ ']' :: '(' :: u)
      = some (acc.reverse ++ l, p, rest') := by
  intro l
  induction l with
  | nil =>
    intro acc u p rest' _ hp
    rw [List.nil_append, labelScan.eq_def]
    dsimp only
    rw [if_pos (by simp), if_pos (by simp), hp]
    simp
  | cons x l' ih =>
    intro acc u p rest' hl hp
    rw [List.cons_append, labelScan.eq_def]
    dsimp only
    rw [if_neg (by simp [(hl x (by simp)).1]), if_neg (by simp [(hl x (by simp)).2])]
    rw [ih (x :: acc) u p rest' (fun c hc => hl c (by simp [hc])) hp]
    simp

theorem parenMatch_strip (imgDir r rest0 : List Char) (hne : r ≠ [])
    (hr : ∀ c ∈ r, c ≠ ')') :
    parenMatch imgDir (imgDir ++ (r ++ ')' :: rest0)) = some (r, rest0) := by
  unfold parenMatch
  rw [if_pos (by rw [List.take_left])]
  rw [List.drop_left, pathMatch_run r rest0 hne hr]

theorem parenMatch_keep (imgDir p rest0 : List Char) (hne : p ≠ [])
    (hr : ∀ c ∈ p, c ≠ ')') (hp4 : p.take imgDir.length ≠ imgDir)
    (hdir : ')' ∉ imgDir) :
    parenMatch imgDir (p ++ ')' :: rest0) = some (p, rest0) := by
  unfold parenMatch
  rw [if_neg ?hcond]
  · exact pathMatch_run p rest0 hne hr
  case hcond =>
    intro hcontra
    rcases Nat.lt_or_ge p.length imgDir.length with hlt | hge
    · have hmem : ')' ∈ (p ++ ')' :: rest0).take imgDir.length := by
        rw [List.take_append_eq_append_take]
        refine List.mem_append_right _ ?_
        rw [show imgDir.length - p.length = (imgDir.length - p.length - 1) + 1 from
          by omega, List.take_succ_cons]
        exact List.mem_cons_self _ _
      rw [hcontra] at hmem
      exact hdir hmem
    · rw [List.take_append_of_le_length hge] at hcontra
      exact hp4 hcontra

theorem mdLinkMatch_run (imgDir l u p rest' : List Char)
    (hl : ∀ c ∈ l, c ≠ ']' ∧ c ≠ '\n')
    (hp : parenMatch imgDir u = some (p, rest')) :
    mdLinkMatch imgDir ('[' :: (l ++ ']' :: '(' :: u))
      = some ('[' :: (l ++ ']' :: '(' :: (p ++ [')'])), rest') := by
  rw [mdLinkMatch]
  rw [if_pos (by simp)]
  rw [labelScan_clean imgDir l [] u p rest' hl hp]
  simp

theorem mdLinkMatch_ne (imgDir : List Char) (c : Char) (t : List Char)
    (h : c ≠ '[') : mdLinkMatch imgDir (c :: t) = none := by
  rw [mdLinkMatch]
  rw [if_neg (by simp [h])]

theorem htmlImgMatch_ne_head (imgDir : List Char) (c : Char) (t : List Char)
    (h : c ≠ '<') : htmlImgMatch imgDir (c :: t) = none := by
  rw [htmlImgMatch.eq_def]
  rw [if_neg (by
    rw [List.take_succ_cons]
    intro hcontra
    injection hcontra with h1 _
    exact h h1)]

theorem pySub_nil (m : List Char → Option (List Char × List Char)) :
    pySub m [] = [] := rfl

theorem pySub_id_of_head (m : List Char → Option (List Char × List Char))
    (P : Char → Prop) (hm : ∀ c t, P c → m (c :: t) = none)
    (s : List Char) (h : ∀ c ∈ s, P c) : pySub m s = s := by
  apply pySub_id
  intro i hi
  rw [List.drop_eq_getElem_cons hi]
  exact hm _ _ (h _ (List.getElem_mem hi))

theorem cbMatchLen_no_fence (a : Bool) (s : List Char)
    (h : ∀ c ∈ s, c ≠ btick ∧ c ≠ tildec) : cbMatchLen a s = none := by
  match s with
  | [] => cases a <;> rfl
  | c :: rest =>
    have hst : startsWith3 tildec (c :: rest) = false :=
      startsWith3_head_ne tildec c rest (beq_eq_false_iff_ne.mpr (h c (by simp)).2)
    have hsb : startsWith3 btick (c :: rest) = false :=
      startsWith3_head_ne btick c rest (beq_eq_false_iff_ne.mpr (h c (by simp)).1)
    have hft : fenceLen tildec (c :: rest) = none := by
      rw [fenceLen, if_neg (by simp [hst])]
    have hfb : fenceLen btick (c :: rest) = none := by
      rw [fenceLen, if_neg (by simp [hsb])]
    have hil : inlineLen (c :: rest) = none := by
      rw [inlineLen, if_neg (by simp [beq_eq_false_iff_ne.mpr (h c (by simp)).1])]
    rw [cbMatchLen, hft, hfb]
    cases a
    · rfl
    · dsimp only
      rw [if_pos rfl, hil]

theorem splitSegs_no_fence (a : Bool) : ∀ (fuel : Nat) (s : List Char),
    (∀ c ∈ s, c ≠ btick ∧ c ≠ tildec) →
    splitSegs a fuel s = if s.isEmpty then [] else [CbSeg.gap s] := by
  intro fuel
  induction fuel with
  | zero => intro s h; cases s <;> simp [splitSegs]
  | succ fuel ih =>
    intro s h
    cases s with
    | nil => simp [splitSegs]
    | cons c rest =>
      rw [splitSegs, cbMatchLen_no_fence a _ h]
      rw [ih rest (fun c hc => h c (by simp [hc]))]
      cases rest <;> simp [consGap]

/-- On fence-free text, the code-block-aware rewriter is just the gap
transform. -/
theorem apcb_gap (a : Bool) (f : List Char → List Char) (s : List Char)
    (hne : s ≠ []) (h : ∀ c ∈ s, c ≠ btick ∧ c ≠ tildec) :
    avoid_process_code_blocks s f a = f s := by
  unfold avoid_process_code_blocks splitSegments
  rw [splitSegs_no_fence a s.length s h, if_neg (by simp [hne])]
  simp [CbSeg.render]

/-- C6: in a non-code span, a Markdown link whose path starts with the
image-directory text `img/` is rewritten to the link without that text, and
a link whose path does not start with it is returned unchanged.  The label
may be any newline-free text without `]`/`[`, and the path any nonempty
text without `)` (the extra character conditions only keep the example out
of the code-block and HTML-tag patterns). -/
theorem C6_img_strip (l r p : List Char)
    (hl : ∀ c ∈ l, c ≠ ']' ∧ c ≠ '\n' ∧ c ≠ '[' ∧ c ≠ '<' ∧ c ≠ btick ∧ c ≠ tildec)
    (hrne : r ≠ []) (hr : ∀ c ∈ r, c ≠ ')' ∧ c ≠ '<' ∧ c ≠ btick ∧ c ≠ tildec)
    (hpne : p ≠ []) (hp : ∀ c ∈ p, c ≠ ')' ∧ c ≠ '<' ∧ c ≠ btick ∧ c ≠ tildec)
    (hp4 : p.take 4 ≠ ('i' :: 'm' :: 'g' :: '/' :: [])) :
    remove_img_path_in_md
        ('[' :: (l ++ ']' :: '(' :: ('i' :: 'm' :: 'g' :: '/' :: (r ++ [')']))))
      = '[' :: (l ++ ']' :: '(' :: (r ++ [')']))
    ∧ remove_img_path_in_md ('[' :: (l ++ ']' :: '(' :: (p ++ [')'])))
      = '[' :: (l ++ ']' :: '(' :: (p ++ [')'])) := by
  constructor
  · have hchars : ∀ c ∈ ('[' :: (l ++ ']' :: '(' ::
        ('i' :: 'm' :: 'g' :: '/' :: (r ++ [')'])))), c ≠ btick ∧ c ≠ tildec := by
      intro c hc
      simp only [List.mem_cons, List.mem_append, List.not_mem_nil, or_false] at hc
      rcases hc with rfl | hc | rfl | rfl | rfl | rfl | rfl | rfl | hc | rfl
      · exact ⟨by decide, by decide⟩
      · exact ⟨(hl c hc).2.2.2.2.1, (hl c hc).2.2.2.2.2⟩
      · exact ⟨by decide, by decide⟩
      · exact ⟨by decide, by decide⟩
      · exact ⟨by decide, by decide⟩
      · exact ⟨by decide, by decide⟩
      · exact ⟨by decide, by decide⟩
      · exact ⟨by decide, by decide⟩
      · exact ⟨(hr c hc).2.2.1, (hr c hc).2.2.2⟩
      · exact ⟨by decide, by decide⟩
    have hstep1 := apcb_gap true (stripImgGap ( "img/".toList))
      ('[' :: (l ++ ']' :: '(' :: ('i' :: 'm' :: 'g' :: '/' :: (r ++ [')']))))
      (by simp) hchars
    have hmd : pySub (mdLinkMatch ( "img/".toList))
        ('[' :: (l ++ ']' :: '(' :: ('i' :: 'm' :: 'g' :: '/' :: (r ++ [')']))))
        = '[' :: (l ++ ']' :: '(' :: (r ++ [')'])) := by
      have hdc := pySub_decomp (mdLinkMatch ( "img/".toList))
        (mdLinkMatch_shrink ( "img/".toList)) []
        ('[' :: (l ++ ']' :: '(' :: ( "img/".toList ++ (r ++ ')' :: []))))
        ('[' :: (l ++ ']' :: '(' :: (r ++ [')']))) []
        (by intro i hi; simp at hi)
        (mdLinkMatch_run ( "img/".toList) l ( "img/".toList ++ (r ++ ')' :: [])) r []
          (fun c hc => ⟨(hl c hc).1, (hl c hc).2.1⟩)
          (parenMatch_strip ( "img/".toList) r [] hrne (fun c hc => (hr c hc).1)))
      simpa [pySub_nil] using hdc
    have hhtml : pySub (htmlImgMatch ( "img/".toList))
        ('[' :: (l ++ ']' :: '(' :: (r ++ [')'])))
        = '[' :: (l ++ ']' :: '(' :: (r ++ [')'])) := by
      refine pySub_id_of_head _ (fun c => c ≠ '<')
        (fun c t hc => htmlImgMatch_ne_head ( "img/".toList) c t hc) _ ?_
      intro c hc
      simp only [List.mem_cons, List.mem_append, List.not_mem_nil, or_false] at hc
      rcases hc with rfl | hc | rfl | rfl | hc | rfl
      · decide
      · exact (hl c hc).2.2.2.1
      · decide
      · decide
      · exact (hr c hc).2.1
      · decide
    rw [remove_img_path_in_md, hstep1, stripImgGap, hmd, hhtml]
  · have hchars : ∀ c ∈ ('[' :: (l ++ ']' :: '(' :: (p ++ [')']))),
        c ≠ btick ∧ c ≠ tildec := by
      intro c hc
      simp only [List.mem_cons, List.mem_append, List.not_mem_nil, or_false] at hc
      rcases hc with rfl | hc | rfl | rfl | hc | rfl
      · exact ⟨by decide, by decide⟩
      · exact ⟨(hl c hc).2.2.2.2.1, (hl c hc).2.2.2.2.2⟩
      · exact ⟨by decide, by decide⟩
      · exact ⟨by decide, by decide⟩
      · exact ⟨(hp c hc).2.2.1, (hp c hc).2.2.2⟩
      · exact ⟨by decide, by decide⟩
    have hstep1 := apcb_gap true (stripImgGap ( "img/".toList))
      ('[' :: (l ++ ']' :: '(' :: (p ++ [')']))) (by simp) hchars
    have hmd : pySub (mdLinkMatch ( "img/".toList))
        ('[' :: (l ++ ']' :: '(' :: (p ++ [')'])))
        = '[' :: (l ++ ']' :: '(' :: (p ++ [')'])) := by
      have hdc := pySub_decomp (mdLinkMatch ( "img/".toList))
        (mdLinkMatch_shrink ( "img/".toList)) []
        ('[' :: (l ++ ']' :: '(' :: (p ++ ')' :: [])))
        ('[' :: (l ++ ']' :: '(' :: (p ++ [')']))) []
        (by intro i hi; simp at hi)
        (mdLinkMatch_run ( "img/".toList) l (p ++ ')' :: []) p []
          (fun c hc => ⟨(hl c hc).1, (hl c hc).2.1⟩)
          (parenMatch_keep ( "img/".toList) p [] hpne (fun c hc => (hp c hc).1)
            hp4 (by decide)))
      simpa [pySub_nil] using hdc
    have hhtml : pySub (htmlImgMatch ( "img/".toList))
        ('[' :: (l ++ ']' :: '(' :: (p ++ [')'])))
        = '[' :: (l ++ ']' :: '(' :: (p ++ [')'])) := by
      refine pySub_id_of_head _ (fun c => c ≠ '<')
        (fun c t hc => htmlImgMatch_ne_head ( "img/".toList) c t hc) _ ?_
      intro c hc
      simp only [List.mem_cons, List.mem_append, List.not_mem_nil, or_false] at hc
      rcases hc with rfl | hc | rfl | rfl | hc | rfl
      · decide
      · exact (hl c hc).2.2.2.1
      · decide
      · decide
      · exact (hp c hc).2.1
      · decide
    rw [remove_img_path_in_md, hstep1, stripImgGap, hmd, hhtml]

/-- C6 witness: the spec's two concrete examples. -/
theorem C6_img_strip_witness :
    remove_img_path_in_md ( "[cat](img/cat.png)".toList) = ( "[cat](cat.png)".toList)
    ∧ remove_img_path_in_md ( "[cat](other/cat.png)".toList)
      = ( "[cat](other/cat.png)".toList) := by
  have h := C6_img_strip ( "cat".toList) ( "cat.png".toList) ( "other/cat.png".toList)
    (by decide) (by decide) (by decide) (by decide) (by decide) (by decide)
  exact ⟨h.1, h.2⟩

/-! ### `replace_url_to_card` (C7) -/

theorem hasSub2_tail (x y c : Char) (t : List Char)
    (h : hasSub2 x y (c :: t) = false) : hasSub2 x y t = false := by
  match t with
  | [] => rfl
  | d :: r =>
    rw [hasSub2] at h
    exact (Bool.or_eq_false_iff.mp h).2

theorem cardIconScan_run : ∀ (icon acc rest0 : List Char),
    (∀ c ∈ icon, c ≠ '>') → (icon = [] → acc ≠ []) →
    cardIconScan acc (icon ++ ' ' :: '-' :: '-' :: '>' :: rest0)
      = some (acc.reverse ++ icon, rest0) := by
  intro icon
  induction icon with
  | nil =>
    intro acc rest0 _ hne
    rw [List.nil_append, cardIconScan.eq_def]
    dsimp only
    rw [if_pos (by
      have hsp : pyIsSpace ' ' = true := by decide
      simp [List.isEmpty_iff, hne rfl, hsp])]
    simp
  | cons c icon' ih =>
    intro acc rest0 hgt hne
    rw [List.cons_append, cardIconScan.eq_def]
    dsimp only
    rw [if_neg ?hfail]
    case hfail =>
      simp only [Bool.and_eq_true, decide_eq_true_eq]
      rintro ⟨⟨-, -⟩, hwin⟩
      have hmem : '>' ∈ (icon' ++ ' ' :: '-' :: '-' :: '>' :: rest0).take 3 := by
        rw [hwin]
        simp
      rw [List.take_append_eq_append_take] at hmem
      rcases List.mem_append.mp hmem with hm | hm
      · exact hgt '>' (by simp [List.mem_of_mem_take hm]) rfl
      · rw [show (3 - icon'.length) = min (3 - icon'.length) 3 from by omega,
          ← List.take_take,
          show List.take 3 (' ' :: '-' :: '-' :: '>' :: rest0)
            = (' ' :: '-' :: '-' :: []) from rfl] at hm
        exact absurd (List.take_subset _ _ hm) (by decide)
    rw [if_neg (by simp [hgt c (by simp)])]
    rw [ih (c :: acc) rest0 (fun x hx => hgt x (by simp [hx])) (by simp)]
    simp

theorem cardTitleScan_run : ∀ (ttl acc u : List Char),
    hasSub2 ']' '(' ttl = false →
    cardTitleScan acc (ttl ++ ']' :: '(' :: u) = some (acc.reverse ++ ttl, u) := by
  intro ttl
  induction ttl with
  | nil =>
    intro acc u _
    rw [List.nil_append, cardTitleScan.eq_def]
    dsimp only
    rw [if_pos (by simp), if_pos (by simp)]
    simp
  | cons x ttl' ih =>
    intro acc u hns
    have htail := hasSub2_tail ']' '(' x ttl' hns
    rw [List.cons_append, cardTitleScan.eq_def]
    dsimp only
    by_cases hx : x = ']'
    · rw [if_pos (by simp [hx])]
      cases ttl' with
      | nil =>
        simp only [List.nil_append]
        rw [if_neg (by decide)]
        have hrec := ih (x :: acc) u (by rfl)
        rw [List.nil_append] at hrec
        rw [hrec]
        simp
      | cons y ttl'' =>
        have hy : y ≠ '(' := by
          intro hy
          rw [hx, hy, hasSub2] at hns
          simp at hns
        simp only [List.cons_append]
        rw [if_neg (by simp [hy])]
        rw [show y :: (ttl'' ++ ']' :: '(' :: u)
            = (y :: ttl'') ++ ']' :: '(' :: u from rfl]
        rw [ih (x :: acc) u htail]
        simp
    · rw [if_neg (by simp [hx])]
      rw [ih (x :: acc) u htail]
      simp

theorem cardAfterIcon_run (ttl url rest0 : List Char)
    (httl : hasSub2 ']' '(' ttl = false) (hurl : ∀ c ∈ url, c ≠ ')') :
    cardAfterIcon ('\n' :: '[' :: (ttl ++ ']' :: '(' :: (url ++ ')' :: rest0)))
      = some (ttl, url, rest0) := by
  rw [cardAfterIcon]
  rw [if_pos (by decide)]
  rw [cardTitleScan_run ttl [] (url ++ ')' :: rest0) httl]
  simp only [List.reverse_nil, List.nil_append]
  have hall : ∀ c ∈ url, (fun c => !(c == ')')) c = true := by
    intro c hc
    simp [hurl c hc]
  have hdw : (url ++ ')' :: rest0).dropWhile (fun c => !(c == ')')) = ')' :: rest0 := by
    rw [dropWhile_append_all _ url _ hall]
    simp
  have htw : (url ++ ')' :: rest0).takeWhile (fun c => !(c == ')')) = url := by
    rw [takeWhile_append_all _ url _ hall]
    simp
  rw [hdw, htw]
  dsimp only
  rw [if_pos (by decide)]

theorem cardMatch_run (icon ttl url rest0 : List Char)
    (hne : icon ≠ []) (hgt : ∀ c ∈ icon, c ≠ '>')
    (httl : hasSub2 ']' '(' ttl = false) (hurl : ∀ c ∈ url, c ≠ ')') :
    cardMatch ('<' :: '!' :: '-' :: '-' :: ' ' ::
        (icon ++ ' ' :: '-' :: '-' :: '>' :: '\n' :: '[' ::
          (ttl ++ ']' :: '(' :: (url ++ ')' :: rest0))))
      = some (cardTemplate (pyStrip ttl) (pyStrip url) (resolveIcon (pyStrip icon)),
          rest0) := by
  rw [cardMatch]
  rw [if_pos (by decide)]
  rw [cardIconScan_run icon [] ('\n' :: '[' :: (ttl ++ ']' :: '(' :: (url ++ ')' :: rest0)))
    hgt (fun h => absurd h hne)]
  simp only [List.reverse_nil, List.nil_append]
  rw [cardAfterIcon_run ttl url rest0 httl hurl]

theorem cardIconScan_shrink : ∀ (t acc icon after : List Char),
    cardIconScan acc t = some (icon, after) → after.length < t.length := by
  intro t
  induction t with
  | nil => intro acc icon after h; simp [cardIconScan] at h
  | cons c rest ih =>
    intro acc icon after h
    rw [cardIconScan.eq_def] at h
    dsimp only at h
    split at h
    · simp only [Option.some.injEq, Prod.mk.injEq] at h
      obtain ⟨-, hafter⟩ := h
      subst hafter
      have := List.length_drop 3 rest
      simp
      omega
    · split at h
      · cases h
      · have h1 := ih _ _ _ h
        simp
        omega

theorem cardTitleScan_shrink : ∀ (t acc ttl u : List Char),
    cardTitleScan acc t = some (ttl, u) → u.length < t.length := by
  intro t
  induction t with
  | nil => intro acc ttl u h; simp [cardTitleScan] at h
  | cons c rest ih =>
    intro acc ttl u h
    rw [cardTitleScan.eq_def] at h
    dsimp only at h
    split at h
    · cases rest with
      | nil =>
        have h1 := ih _ _ _ h
        simp at h1
      | cons r1 rest2 =>
        dsimp only at h
        split at h
        · simp only [Option.some.injEq, Prod.mk.injEq] at h
          obtain ⟨-, hu⟩ := h
          subst hu
          simp
          omega
        · have h1 := ih _ _ _ h
          simp at h1 ⊢
          omega
    · have h1 := ih _ _ _ h
      simp at h1 ⊢
      omega

theorem cardAfterIcon_shrink (s ttl url rest : List Char)
    (h : cardAfterIcon s = some (ttl, url, rest)) : rest.length < s.length := by
  match s, h with
  | [], h => simp [cardAfterIcon] at h
  | [a], h => simp [cardAfterIcon] at h
  | a :: b :: t, h =>
    rw [cardAfterIcon] at h
    split at h
    · cases hts : cardTitleScan [] t with
      | some q =>
        obtain ⟨t1, u⟩ := q
        rw [hts] at h
        dsimp only at h
        have h1 := cardTitleScan_shrink t [] t1 u hts
        cases hdw : u.dropWhile (fun c => !(c == ')')) with
        | nil => rw [hdw] at h; cases h
        | cons d rest' =>
          rw [hdw] at h
          dsimp only at h
          split at h
          · simp only [Option.some.injEq, Prod.mk.injEq] at h
            obtain ⟨-, -, hr⟩ := h
            subst hr
            have h2 := congrArg List.length
              (List.takeWhile_append_dropWhile (p := fun c => !(c == ')')) (l := u))
            rw [hdw] at h2
            simp at h2 ⊢
            omega
          · cases h
      | none => rw [hts] at h; cases h
    · cases h

theorem cardMatch_shrink (s r rest' : List Char)
    (h : cardMatch s = some (r, rest')) : rest'.length < s.length := by
  match s, h with
  | [], h => simp [cardMatch] at h
  | [a], h => simp [cardMatch] at h
  | [a, b], h => simp [cardMatch] at h
  | [a, b, c1], h => simp [cardMatch] at h
  | [a, b, c1, c2], h => simp [cardMatch] at h
  | a :: b :: c1 :: c2 :: c :: t, h =>
    rw [cardMatch] at h
    split at h
    · cases hic : cardIconScan [] t with
      | some q =>
        obtain ⟨icon, after⟩ := q
        rw [hic] at h
        dsimp only at h
        have h1 := cardIconScan_shrink t [] icon after hic
        cases hai : cardAfterIcon after with
        | some q2 =>
          obtain ⟨t1, u1, r1⟩ := q2
          rw [hai] at h
          dsimp only at h
          cases h
          have h2 := cardAfterIcon_shrink after t1 u1 _ hai
          simp
          omega
        | none => rw [hai] at h; cases h
      | none => rw [hic] at h; cases h
    · cases h

/-- C7: an HTML comment holding an icon text, followed by a newline and a
Markdown link, is replaced by the card directive built from the stripped
title, url and resolved icon; the rest of the document is processed the
same way.  `resolveIcon` substitutes the canonical icon URL exactly for the
(lowercased) aliases of the table. -/
theorem C7_card (icon ttl url rest0 : List Char)
    (hne : icon ≠ []) (hgt : ∀ c ∈ icon, c ≠ '>')
    (httl : hasSub2 ']' '(' ttl = false) (hurl : ∀ c ∈ url, c ≠ ')') :
    replace_url_to_card ('<' :: '!' :: '-' :: '-' :: ' ' ::
        (icon ++ ' ' :: '-' :: '-' :: '>' :: '\n' :: '[' ::
          (ttl ++ ']' :: '(' :: (url ++ ')' :: rest0))))
      = cardTemplate (pyStrip ttl) (pyStrip url) (resolveIcon (pyStrip icon))
          ++ replace_url_to_card rest0 := by
  have hdc := pySub_decomp cardMatch cardMatch_shrink []
    ('<' :: '!' :: '-' :: '-' :: ' ' ::
      (icon ++ ' ' :: '-' :: '-' :: '>' :: '\n' :: '[' ::
        (ttl ++ ']' :: '(' :: (url ++ ')' :: rest0))))
    (cardTemplate (pyStrip ttl) (pyStrip url) (resolveIcon (pyStrip icon))) rest0
    (by intro i hi; simp at hi)
    (cardMatch_run icon ttl url rest0 hne hgt httl hurl)
  rw [List.nil_append] at hdc
  exact hdc

/-- C7 witness: the spec's concrete example, with the github alias resolved
to the canonical icon URL constant. -/
theorem C7_card_witness :
    replace_url_to_card ( "<!-- github -->\n[GitHub](https://github.com)".toList)
      = ( "\x7b% externalLinkCard \"GitHub\" \"https://github.com\" \"https://github.githubassets.com/assets/apple-touch-icon-144x144-b882e354c005.png\" %\x7d".toList) := by
  have h := C7_card ( "github".toList) ( "GitHub".toList)
    ( "https://github.com".toList) [] (by decide) (by decide) (by decide) (by decide)
  exact h.trans (by decide)

/-! ### `remove_first_level_titles` (C5) -/

/-- C5 counterexample: in `a\n# x\n# y\nb\n` both heading lines start with
`#` and a space and are surrounded by newlines outside any code block, so
the claim says both are removed; but the first match consumes the newline
the second heading needs as its leading newline, so `# y` survives. -/
theorem C5_counterexample :
    remove_first_level_titles ( "a\n# x\n# y\nb\n".toList) = ( "a# y\nb\n".toList)
    ∧ '#' ∈ remove_first_level_titles ( "a\n# x\n# y\nb\n".toList) := by
  exact ⟨by decide, by decide⟩

theorem headingMatch_ne (x y : Char) (t : List Char) (h : ¬(x = '\n' ∧ y = '#')) :
    headingMatch (x :: y :: t) = none := by
  rw [headingMatch]
  rw [if_neg (by
    intro hc
    simp only [Bool.and_eq_true, beq_iff_eq] at hc
    exact h hc)]

theorem headingMatch_none_over : ∀ (a b : List Char),
    hasSub2 '\n' '#' a = false → b.head? ≠ some '#' →
    ∀ i, i < a.length → headingMatch (a.drop i ++ b) = none := by
  intro a
  induction a with
  | nil => intro b _ _ i hi; simp at hi
  | cons x a' ih =>
    intro b ha hb i hi
    cases i with
    | zero =>
      rw [List.drop_zero, List.cons_append]
      cases a' with
      | nil =>
        rw [List.nil_append]
        cases b with
        | nil => rfl
        | cons d t =>
          refine headingMatch_ne x d t ?_
          rintro ⟨-, rfl⟩
          exact hb rfl
      | cons y a'' =>
        rw [List.cons_append]
        refine headingMatch_ne x y _ ?_
        rintro ⟨rfl, rfl⟩
        rw [hasSub2] at ha
        simp at ha
    | succ i' =>
      rw [List.drop_succ_cons]
      exact ih b (hasSub2_tail '\n' '#' x a' ha) hb i' (by simp at hi; omega)

theorem headingMatch_run (c0 : Char) (t' b : List Char)
    (hc0 : pyIsSpace c0 = false) (hnl : ∀ c ∈ c0 :: t', c ≠ '\n') :
    headingMatch ('\n' :: '#' :: ' ' :: ((c0 :: t') ++ '\n' :: b))
      = some ([], b) := by
  rw [headingMatch]
  rw [if_pos (by decide)]
  have hm : (' ' :: ((c0 :: t') ++ '\n' :: b)).takeWhile pyIsSpace = [' '] := by
    rw [List.takeWhile_cons, if_pos (by decide), List.cons_append,
      List.takeWhile_cons, if_neg (by simp [hc0])]
  rw [hm]
  have htail : headTail ((' ' :: ((c0 :: t') ++ '\n' :: b)).drop 1)
      = some ((c0 :: t').length + 1) := by
    rw [show (' ' :: ((c0 :: t') ++ '\n' :: b)).drop 1 = (c0 :: t') ++ '\n' :: b
      from rfl]
    have hall : ∀ c ∈ c0 :: t', (fun c => !(c == '\n')) c = true := by
      intro c hc
      simp [hnl c hc]
    have hu : ((c0 :: t') ++ '\n' :: b).takeWhile (fun c => !(c == '\n'))
        = c0 :: t' := by
      rw [takeWhile_append_all _ _ _ hall]
      simp
    rw [headTail, hu]
    rw [if_neg (show ¬(((c0 :: t') : List Char).isEmpty = true) from by simp)]
    rw [List.drop_left]
    dsimp only
    rw [if_pos (show ('\n' == '\n') = true from by decide)]
  rw [show (([' '] : List Char).length) = 0 + 1 from rfl, headTry, htail]
  dsimp only
  rw [show (' ' :: ((c0 :: t') ++ '\n' :: b)).drop (0 + 1 + ((c0 :: t').length + 1))
      = b from by
    rw [show (0 + 1 + ((c0 :: t').length + 1)) = ((c0 :: t') ++ ['\n']).length + 1
      from by simp only [List.length_append, List.length_cons, List.length_nil]; omega]
    rw [show (' ' :: ((c0 :: t') ++ '\n' :: b)) = ' ' :: (((c0 :: t') ++ ['\n']) ++ b)
      from by simp]
    rw [List.drop_succ_cons, List.drop_left]]

/-- C5 amended (general part): on fence-free text, a heading line
`# {text}` with a newline on both sides, no earlier `\n#` pair before it,
and same-line text starting with a non-whitespace character, is removed
together with both its newlines being consumed (the leading one deleted,
the trailing one swallowed by the match), after which the scan continues on
the remainder only. -/
theorem C5_removal_general (a : List Char) (c0 : Char) (t' b : List Char)
    (ha : hasSub2 '\n' '#' a = false)
    (hafence : ∀ c ∈ a, c ≠ btick ∧ c ≠ tildec)
    (hc0 : pyIsSpace c0 = false)
    (hnl : ∀ c ∈ c0 :: t', c ≠ '\n')
    (htfence : ∀ c ∈ c0 :: t', c ≠ btick ∧ c ≠ tildec)
    (hbfence : ∀ c ∈ b, c ≠ btick ∧ c ≠ tildec) :
    remove_first_level_titles
        (a ++ '\n' :: '#' :: ' ' :: ((c0 :: t') ++ '\n' :: b))
      = a ++ removeTitlesGap b := by
  have hchars : ∀ c ∈ (a ++ '\n' :: '#' :: ' ' :: ((c0 :: t') ++ '\n' :: b)),
      c ≠ btick ∧ c ≠ tildec := by
    intro c hc
    simp only [List.mem_cons, List.mem_append] at hc
    rcases hc with hc | rfl | rfl | rfl | hc | rfl | hc
    · exact hafence c hc
    · exact ⟨by decide, by decide⟩
    · exact ⟨by decide, by decide⟩
    · exact ⟨by decide, by decide⟩
    · exact htfence c (by simp [hc])
    · exact ⟨by decide, by decide⟩
    · exact hbfence c hc
  rw [remove_first_level_titles]
  rw [apcb_gap false removeTitlesGap _ (by simp) hchars]
  rw [show removeTitlesGap (a ++ '\n' :: '#' :: ' ' :: ((c0 :: t') ++ '\n' :: b))
      = pySub headingMatch (a ++ '\n' :: '#' :: ' ' :: ((c0 :: t') ++ '\n' :: b))
    from rfl]
  have hdc := pySub_decomp headingMatch
    (fun s r rest' h => by
      match s, h with
      | x :: y :: t, h =>
        rw [headingMatch] at h
        split at h
        · cases hht : headTry t (t.takeWhile pyIsSpace).length with
          | some n =>
            rw [hht] at h
            dsimp only at h
            cases h
            have hd := List.length_drop n t
            simp
            omega
          | none => rw [hht] at h; cases h
        · cases h
      | [], h => simp [headingMatch] at h
      | [x], h => simp [headingMatch] at h)
    a ('\n' :: '#' :: ' ' :: ((c0 :: t') ++ '\n' :: b)) [] b
    (headingMatch_none_over a _ ha (by simp))
    (headingMatch_run c0 t' b hc0 hnl)
  rw [hdc, List.nil_append]
  rfl

/-- C5 amended: the general removal statement above, together with the
spec's fenced-code example: the heading inside the fence is untouched, the
one outside is removed. -/
theorem C5_title_removal_amended :
    (∀ (a : List Char) (c0 : Char) (t' b : List Char),
      hasSub2 '\n' '#' a = false →
      (∀ c ∈ a, c ≠ btick ∧ c ≠ tildec) →
      pyIsSpace c0 = false →
      (∀ c ∈ c0 :: t', c ≠ '\n') →
      (∀ c ∈ c0 :: t', c ≠ btick ∧ c ≠ tildec) →
      (∀ c ∈ b, c ≠ btick ∧ c ≠ tildec) →
      remove_first_level_titles
          (a ++ '\n' :: '#' :: ' ' :: ((c0 :: t') ++ '\n' :: b))
        = a ++ removeTitlesGap b)
    ∧ remove_first_level_titles ( "```\n# H\n```\n\n# X\nrest\n".toList)
        = ( "```\n# H\n```\nrest\n".toList) := by
  exact ⟨fun a c0 t' b h1 h2 h3 h4 h5 h6 =>
    C5_removal_general a c0 t' b h1 h2 h3 h4 h5 h6, by decide⟩

/-- C5 witness: a concrete heading between prose lines is removed with its
surrounding newlines. -/
theorem C5_title_removal_witness :
    remove_first_level_titles ( "intro\n# Title\nbody\n".toList)
      = ( "intro".toList ++ removeTitlesGap ( "body\n".toList))
    ∧ ( "intro".toList ++ removeTitlesGap ( "body\n".toList))
      = ( "introbody\n".toList) := by
  constructor
  · exact C5_title_removal_amended.1 ( "intro".toList) 'T' ( "itle".toList)
      ( "body\n".toList) (by decide) (by decide) (by decide) (by decide)
      (by decide) (by decide)
  · decide

/-! ### `change_front_matter` (C8) -/

theorem dropWhile_length_le (p : Char → Bool) (l : List Char) :
    (l.dropWhile p).length ≤ l.length :=
  (List.dropWhile_sublist p).length_le

theorem dropWhile_append_ne (p : Char → Bool) (l1 l2 : List Char)
    (h : l1.dropWhile p ≠ []) :
    (l1 ++ l2).dropWhile p = l1.dropWhile p ++ l2 := by
  induction l1 with
  | nil => simp [List.dropWhile] at h
  | cons c t ih =>
    rw [List.dropWhile_cons] at h
    rw [List.cons_append, List.dropWhile_cons, List.dropWhile_cons]
    by_cases hp : p c = true
    · rw [if_pos hp] at h
      rw [if_pos hp, if_pos hp]
      exact ih h
    · rw [if_neg hp, if_neg hp]
      rfl

/-- If `key` has no occurrence inside `w`, no window of `w` equals it. -/
theorem hasSubstr_window (key : List Char) : ∀ (w : List Char),
    hasSubstr key w = false → ∀ i, (w.drop i).take key.length ≠ key := by
  intro w
  induction w with
  | nil =>
    intro h i hc
    rw [List.drop_nil, List.take_nil] at hc
    rw [hasSubstr] at h
    rw [← hc] at h
    simp at h
  | cons c t ih =>
    intro h i
    rw [hasSubstr, Bool.or_eq_false_iff] at h
    obtain ⟨h1, h2⟩ := h
    match i with
    | 0 =>
      rw [List.drop_zero]
      intro hc
      rw [hc] at h1
      simp at h1
    | i + 1 =>
      rw [List.drop_succ_cons]
      exact ih h2 i

/-- Any window starting inside a line `w ++ ['\n']` (with any continuation
after it) differs from a newline-free `key` that does not occur in `w`. -/
theorem line_no_key (key w : List Char) (hknl : '\n' ∉ key)
    (hnl : '\n' ∉ w) (hno : hasSubstr key w = false) :
    ∀ (rest : List Char) (i : Nat), i < w.length + 1 →
      ((w ++ ['\n']).drop i ++ rest).take key.length ≠ key := by
  intro rest i hi hc
  by_cases hcase : i + key.length ≤ w.length
  · rw [List.drop_append_of_le_length (by omega), List.append_assoc,
      List.take_append_of_le_length (by simp; omega)] at hc
    exact hasSubstr_window key w hno i hc
  · push_neg at hcase
    have hkpos : 0 < key.length := by omega
    have hdlen : ((w ++ ['\n']).drop i).length = w.length + 1 - i := by
      simp
    have hk : w.length - i < key.length := by omega
    have hmem : '\n' ∈ key := by
      rw [← hc, List.mem_iff_getElem]
      refine ⟨w.length - i, by simp; omega, ?_⟩
      rw [List.getElem_take, List.getElem_append_left (by simp; omega :
        w.length - i < ((w ++ ['\n']).drop i).length), List.getElem_drop,
        List.getElem_concat_length _ _ _ (by omega)]
    exact hknl hmem

/-- Any window starting inside a glued block of clean lines differs from
the key, whatever follows the block. -/
theorem lines_no_key (key : List Char) (hknl : '\n' ∉ key) :
    ∀ (ws : List (List Char)),
      (∀ w ∈ ws, '\n' ∉ w ∧ hasSubstr key w = false) →
      ∀ (b : List Char) (i : Nat), i < (linesOf ws).length →
        ((linesOf ws).drop i ++ b).take key.length ≠ key := by
  intro ws
  induction ws with
  | nil =>
    intro _ b i hi
    rw [show linesOf [] = [] from rfl] at hi
    simp at hi
  | cons w ws' ih =>
    intro h b i hi
    have hline : linesOf (w :: ws') = (w ++ ['\n']) ++ linesOf ws' := by
      simp [linesOf]
    rw [hline] at hi ⊢
    by_cases hcase : i < w.length + 1
    · rw [List.drop_append_of_le_length (by simp; omega), List.append_assoc]
      exact line_no_key key w hknl (h w (by simp)).1 (h w (by simp)).2
        (linesOf ws' ++ b) i hcase
    · push_neg at hcase
      rw [show i = (w ++ ['\n']).length + (i - (w.length + 1)) from by
        simp; omega, List.drop_append]
      refine ih (fun x hx => h x (by simp [hx])) b (i - (w.length + 1)) ?_
      simp at hi
      omega

/-- One global `re.sub` pass of a `key`-value line pattern over glued
clean lines surrounding a single keyed line: only the keyed line is
rewritten (to the replacement, keeping its newline) and every other byte
is copied. -/
theorem keyedLineSub (m : List Char → Option (List Char × List Char))
    (key repl : List Char) (hkne : key ≠ []) (hknl : '\n' ∉ key)
    (hm : ∀ s, m s = if s.take key.length = key
      then some (repl, ((s.drop key.length).dropWhile pyIsSpace).dropWhile
        (fun c => !(c == '\n')))
      else none)
    (pres posts : List (List Char)) (v : List Char)
    (hpres : ∀ w ∈ pres, '\n' ∉ w ∧ hasSubstr key w = false)
    (hposts : ∀ w ∈ posts, '\n' ∉ w ∧ hasSubstr key w = false)
    (hvnl : '\n' ∉ v) (hvs : v.dropWhile pyIsSpace ≠ []) :
    pySub m (linesOf pres ++ (key ++ (v ++ '\n' :: linesOf posts)))
      = linesOf pres ++ (repl ++ '\n' :: linesOf posts) := by
  have hshrink : ∀ s r rest', m s = some (r, rest') →
      rest'.length < s.length := by
    intro s r rest' hms
    rw [hm] at hms
    by_cases ht : s.take key.length = key
    · rw [if_pos ht] at hms
      have h1 : rest' = ((s.drop key.length).dropWhile pyIsSpace).dropWhile
          (fun c => !(c == '\n')) := by
        cases hms
        rfl
      have hlen : s.length ≥ key.length := by
        have h5 := congrArg List.length ht
        simp at h5
        omega
      have hkpos : 0 < key.length := List.length_pos.mpr hkne
      have h2 := dropWhile_length_le (fun c => !(c == '\n'))
        ((s.drop key.length).dropWhile pyIsSpace)
      have h3 := dropWhile_length_le pyIsSpace (s.drop key.length)
      have h4 : (s.drop key.length).length = s.length - key.length := by simp
      rw [h1]
      omega
    · rw [if_neg ht] at hms
      exact absurd hms (by simp)
  have hall : ∀ c ∈ v.dropWhile pyIsSpace, (!(c == '\n')) = true := by
    intro c hc
    have hcv : c ∈ v := (List.dropWhile_sublist pyIsSpace).subset hc
    simp
    intro heq
    rw [heq] at hcv
    exact hvnl hcv
  have hmatch : m (key ++ (v ++ '\n' :: linesOf posts))
      = some (repl, '\n' :: linesOf posts) := by
    rw [hm, if_pos (List.take_left' rfl), List.drop_left' rfl,
      dropWhile_append_ne pyIsSpace v ('\n' :: linesOf posts) hvs,
      dropWhile_append_all (fun c => !(c == '\n')) (v.dropWhile pyIsSpace)
        ('\n' :: linesOf posts) hall,
      List.dropWhile_cons, if_neg (by simp)]
  have hnone : ∀ i, i < (linesOf pres).length →
      m ((linesOf pres).drop i ++ (key ++ (v ++ '\n' :: linesOf posts)))
        = none := by
    intro i hi
    rw [hm, if_neg (lines_no_key key hknl pres hpres _ i hi)]
  rw [pySub_decomp m hshrink (linesOf pres)
    (key ++ (v ++ '\n' :: linesOf posts)) repl ('\n' :: linesOf posts)
    hnone hmatch]
  congr 1
  congr 1
  refine pySub_id m ('\n' :: linesOf posts) ?_
  intro i hi
  match i with
  | 0 =>
    rw [List.drop_zero, hm]
    refine if_neg ?_
    intro hc
    cases key with
    | nil => exact absurd rfl hkne
    | cons k0 kt =>
      rw [show (k0 :: kt).length = kt.length + 1 from rfl,
        List.take_succ_cons] at hc
      obtain ⟨h1, h2⟩ := List.cons.inj hc
      exact hknl (by rw [← h1]; exact List.mem_cons_self _ _)
  | i + 1 =>
    rw [List.drop_succ_cons, hm]
    have h6 := lines_no_key key hknl posts hposts [] i (by simp at hi; omega)
    rw [List.append_nil] at h6
    rw [if_neg h6]

/-- `readlines` splits off a full newline-terminated line. -/
theorem splitLinesGo_line : ∀ (w : List Char), '\n' ∉ w →
    ∀ (cur rest : List Char),
      splitLinesGo cur (w ++ ('\n' :: rest)) =
        ((cur.reverse ++ w) ++ ['\n']) :: splitLinesGo [] rest := by
  intro w
  induction w with
  | nil =>
    intro _ cur rest
    rw [List.nil_append, splitLinesGo, if_pos (by decide)]
    simp
  | cons c t ih =>
    intro hw cur rest
    have hcc : ¬((c == '\n') = true) := by
      simp
      intro h
      exact hw (by rw [h]; exact List.mem_cons_self _ _)
    rw [List.cons_append, splitLinesGo, if_neg hcc,
      ih (fun hm => hw (List.mem_cons_of_mem c hm)) (c :: cur) rest]
    simp

/-- `readlines` on glued newline-free lines followed by anything. -/
theorem splitLines_linesOf : ∀ (ws : List (List Char)),
    (∀ w ∈ ws, '\n' ∉ w) → ∀ (body : List Char),
      splitLines (linesOf ws ++ body) =
        ws.map (fun w => w ++ ['\n']) ++ splitLines body := by
  intro ws
  induction ws with
  | nil =>
    intro _ body
    rw [show linesOf [] = [] from rfl, List.nil_append, List.map_nil,
      List.nil_append]
  | cons w ws' ih =>
    intro h body
    rw [show linesOf (w :: ws') ++ body
        = w ++ ('\n' :: (linesOf ws' ++ body)) from by simp [linesOf]]
    rw [show splitLines (w ++ ('\n' :: (linesOf ws' ++ body)))
        = ((([] : List Char).reverse ++ w) ++ ['\n'])
          :: splitLinesGo [] (linesOf ws' ++ body) from
      splitLinesGo_line w (h w (by simp)) [] (linesOf ws' ++ body)]
    rw [show splitLinesGo [] (linesOf ws' ++ body)
        = (ws'.map (fun x => x ++ ['\n'])) ++ splitLines body from
      ih (fun x hx => h x (by simp [hx])) body]
    simp

/-- Joining the lines of a file gives the file back. -/
theorem splitLinesGo_flatten : ∀ (s cur : List Char),
    (splitLinesGo cur s).flatten = cur.reverse ++ s := by
  intro s
  induction s with
  | nil =>
    intro cur
    rw [splitLinesGo]
    by_cases hc : cur.isEmpty = true
    · rw [if_pos hc, List.isEmpty_iff.mp hc]
      simp
    · rw [if_neg hc]
      simp
  | cons c rest ih =>
    intro cur
    rw [splitLinesGo]
    by_cases hc : (c == '\n') = true
    · rw [if_pos hc]
      have hc' : c = '\n' := by simpa using hc
      subst hc'
      rw [List.flatten_cons, ih []]
      simp
    · rw [if_neg hc, ih (c :: cur)]
      simp

/-- `list.index('---\n', 1)` over lines where only the marked position
holds the delimiter. -/
theorem findIdx_after_clean : ∀ (l : List (List Char)) (start : Nat)
    (rest : List (List Char)),
    (∀ x ∈ l, (x == delimLine) = false) →
    List.findIdx? (fun x => x == delimLine) (l ++ delimLine :: rest) start
      = some (start + l.length) := by
  intro l
  induction l with
  | nil =>
    intro start rest _
    rw [List.nil_append, List.findIdx?_cons, if_pos (by simp)]
    simp
  | cons x l' ih =>
    intro start rest h
    rw [List.cons_append, List.findIdx?_cons,
      if_neg (by rw [h x (by simp)]; simp),
      ih (start + 1) rest (fun y hy => h y (by simp [hy]))]
    congr 1
    simp only [List.length_cons]
    omega

theorem key_line_ne_delim (k : List Char) (hk : k.length = 6)
    (v : List Char) : k ++ v ≠ ( "---".toList) := by
  intro hc
  have h9 := congrArg List.length hc
  rw [List.length_append, hk] at h9
  have h10 : ( "---".toList).length = 3 := by decide
  omega

/-- C8 counterexample: the `title:` pattern also matches inside a
`subtitle:` line, so a byte of another front-matter line is rewritten: the
subtitle value `keepme` is present before and destroyed after. -/
theorem C8_counterexample :
    hasSubstr ( "keepme".toList)
        ( "---\nsubtitle: keepme\ndate: 2024-05-06\ntitle: t\ncover: c\n---\nbody\n".toList)
      = true
    ∧ change_front_matter
        ( "---\nsubtitle: keepme\ndate: 2024-05-06\ntitle: t\ncover: c\n---\nbody\n".toList)
        ( "fn".toList) ( "NEW".toList)
      = Except.ok
        ( "---\nsubtitle: NEW\ndate: 2024-05-06\ntitle: NEW\ncover: 2024/05/fn/cover.jpg\n---\nbody\n".toList)
    ∧ hasSubstr ( "keepme".toList)
        ( "---\nsubtitle: NEW\ndate: 2024-05-06\ntitle: NEW\ncover: 2024/05/fn/cover.jpg\n---\nbody\n".toList)
      = false :=
  ⟨by decide, rfl, by decide⟩

/-- C8 (amended): on a well-formed file whose front matter is a `---`
line, then lines without newlines of their own among which exactly one
starts with `title:` and exactly one with `cover:` (and no other line
contains either key anywhere, keys never match across a line boundary
since they hold no newline), then a closing `---` line and the body,
`change_front_matter` rewrites exactly the `title:` and `cover:` lines in
place — the title value must have a non-whitespace character so the greedy
`\s*` stays inside the line — and every other front-matter byte and the
whole body are preserved. -/
theorem C8_front_matter_amended
    (preW midW postW : List (List Char))
    (tv cv body fn title y mo d : List Char)
    (hpre : ∀ w ∈ preW, '\n' ∉ w ∧ hasSubstr ( "title:".toList) w = false ∧
      hasSubstr ( "cover:".toList) w = false ∧ w ≠ ( "---".toList))
    (hmid : ∀ w ∈ midW, '\n' ∉ w ∧ hasSubstr ( "title:".toList) w = false ∧
      hasSubstr ( "cover:".toList) w = false ∧ w ≠ ( "---".toList))
    (hpost : ∀ w ∈ postW, '\n' ∉ w ∧ hasSubstr ( "title:".toList) w = false ∧
      hasSubstr ( "cover:".toList) w = false ∧ w ≠ ( "---".toList))
    (htv : '\n' ∉ tv) (htvs : tv.dropWhile pyIsSpace ≠ [])
    (hcv : '\n' ∉ cv) (hcvs : cv.dropWhile pyIsSpace ≠ [])
    (htc : hasSubstr ( "title:".toList) ( "cover:".toList ++ cv) = false)
    (hct : hasSubstr ( "cover:".toList) ( "title: ".toList ++ title) = false)
    (hti : '\n' ∉ title)
    (hd : findDate (linesOf (( "---".toList) :: (preW ++ ( "title:".toList ++ tv)
      :: (midW ++ ( "cover:".toList ++ cv) :: (postW ++ [( "---".toList)])))))
      = some (y, mo, d))
    (hvd : validDate (digitsToNat y) (digitsToNat mo) (digitsToNat d) = true) :
    change_front_matter
        (linesOf (( "---".toList) :: (preW ++ ( "title:".toList ++ tv)
          :: (midW ++ ( "cover:".toList ++ cv) :: (postW ++ [( "---".toList)]))))
          ++ body) fn title
      = Except.ok
        (linesOf (( "---".toList) :: (preW ++ ( "title: ".toList ++ title)
          :: (midW ++ ( "cover: ".toList ++ (y ++ '/' :: (mo ++ '/'
            :: (fn ++ ( "/cover.jpg".toList))))) :: (postW ++ [( "---".toList)]))))
          ++ body) := by
  have hnlA : ∀ w ∈ (( "---".toList) :: (preW ++ ( "title:".toList ++ tv)
      :: (midW ++ ( "cover:".toList ++ cv) :: (postW ++ [( "---".toList)])))),
      '\n' ∉ w := by
    intro w hw
    simp only [List.mem_cons, List.mem_append, List.mem_singleton,
      List.not_mem_nil, or_false] at hw
    rcases hw with rfl | hw | rfl | hw | rfl | hw | rfl
    · decide
    · exact (hpre w hw).1
    · intro hc
      rcases List.mem_append.mp hc with hc | hc
      · revert hc; decide
      · exact htv hc
    · exact (hmid w hw).1
    · intro hc
      rcases List.mem_append.mp hc with hc | hc
      · revert hc; decide
      · exact hcv hc
    · exact (hpost w hw).1
    · decide
  have hsplit := splitLines_linesOf _ hnlA body
  have hdl : ( "---".toList) ++ ['\n'] = delimLine := by decide
  have hclean1 : ∀ x ∈ ((preW ++ ( "title:".toList ++ tv)
      :: (midW ++ ( "cover:".toList ++ cv) :: postW)).map
        (fun w => w ++ ['\n'])), (x == delimLine) = false := by
    intro x hx
    rw [List.mem_map] at hx
    obtain ⟨w, hw, rfl⟩ := hx
    rw [beq_eq_false_iff_ne]
    intro hcontra
    rw [show delimLine = ( "---".toList) ++ ['\n'] from by decide] at hcontra
    have hw3 : w = ( "---".toList) := List.append_cancel_right hcontra
    simp only [List.mem_append, List.mem_cons] at hw
    rcases hw with hw | rfl | hw | rfl | hw
    · exact (hpre w hw).2.2.2 hw3
    · exact key_line_ne_delim ( "title:".toList) (by decide) tv hw3
    · exact (hmid w hw).2.2.2 hw3
    · exact key_line_ne_delim ( "cover:".toList) (by decide) cv hw3
    · exact (hpost w hw).2.2.2 hw3
  have hfind : List.findIdx? (fun l => l == delimLine)
      (((( "---".toList) :: (preW ++ ( "title:".toList ++ tv)
        :: (midW ++ ( "cover:".toList ++ cv) :: (postW ++ [( "---".toList)])))).map
          (fun w => w ++ ['\n']) ++ splitLines body).drop 1)
      = some (preW.length + midW.length + postW.length + 2) := by
    rw [show (((( "---".toList) :: (preW ++ ( "title:".toList ++ tv)
        :: (midW ++ ( "cover:".toList ++ cv) :: (postW ++ [( "---".toList)])))).map
          (fun w => w ++ ['\n']) ++ splitLines body).drop 1)
        = ((preW ++ ( "title:".toList ++ tv) :: (midW ++ ( "cover:".toList ++ cv)
            :: postW)).map (fun w => w ++ ['\n']))
          ++ (delimLine :: splitLines body) from by
      simp [hdl, delimLine]]
    rw [findIdx_after_clean _ 0 _ hclean1]
    simp
    omega
  simp only [change_front_matter]
  rw [hsplit, hfind]
  dsimp only
  have htake : List.take (preW.length + midW.length + postW.length + 2 + 2)
      (List.map (fun w => w ++ ['\n'])
        (( "---".toList) :: (preW ++ ( "title:".toList ++ tv)
          :: (midW ++ ( "cover:".toList ++ cv) :: (postW ++ [( "---".toList)]))))
        ++ splitLines body)
      = List.map (fun w => w ++ ['\n'])
        (( "---".toList) :: (preW ++ ( "title:".toList ++ tv)
          :: (midW ++ ( "cover:".toList ++ cv) :: (postW ++ [( "---".toList)])))) :=
    List.take_left' (by simp; omega)
  have hdrop : List.drop (preW.length + midW.length + postW.length + 2 + 2)
      (List.map (fun w => w ++ ['\n'])
        (( "---".toList) :: (preW ++ ( "title:".toList ++ tv)
          :: (midW ++ ( "cover:".toList ++ cv) :: (postW ++ [( "---".toList)]))))
        ++ splitLines body)
      = splitLines body :=
    List.drop_left' (by simp; omega)
  rw [htake, hdrop]
  rw [show (List.map (fun w => w ++ ['\n'])
      (( "---".toList) :: (preW ++ ( "title:".toList ++ tv)
        :: (midW ++ ( "cover:".toList ++ cv) :: (postW ++ [( "---".toList)]))))).flatten
      = linesOf (( "---".toList) :: (preW ++ ( "title:".toList ++ tv)
        :: (midW ++ ( "cover:".toList ++ cv) :: (postW ++ [( "---".toList)]))))
      from rfl]
  rw [hd]
  dsimp only
  rw [if_pos hvd]
  rw [show (splitLines body).flatten = body from by
    rw [show splitLines body = splitLinesGo [] body from rfl,
      splitLinesGo_flatten body []]
    simp]
  have hpres1 : ∀ w ∈ (( "---".toList) :: preW),
      '\n' ∉ w ∧ hasSubstr ( "title:".toList) w = false := by
    intro w hw
    rcases List.mem_cons.mp hw with rfl | hw
    · exact ⟨by decide, by decide⟩
    · exact ⟨(hpre w hw).1, (hpre w hw).2.1⟩
  have hposts1 : ∀ w ∈ (midW ++ ( "cover:".toList ++ cv)
      :: (postW ++ [( "---".toList)])),
      '\n' ∉ w ∧ hasSubstr ( "title:".toList) w = false := by
    intro w hw
    simp only [List.mem_append, List.mem_cons, List.not_mem_nil, or_false] at hw
    rcases hw with hw | rfl | hw | rfl
    · exact ⟨(hmid w hw).1, (hmid w hw).2.1⟩
    · refine ⟨?_, htc⟩
      intro hc
      rcases List.mem_append.mp hc with hc | hc
      · revert hc; decide
      · exact hcv hc
    · exact ⟨(hpost w hw).1, (hpost w hw).2.1⟩
    · exact ⟨by decide, by decide⟩
  have hshape1 : linesOf (( "---".toList) :: (preW ++ ( "title:".toList ++ tv)
      :: (midW ++ ( "cover:".toList ++ cv) :: (postW ++ [( "---".toList)]))))
      = linesOf (( "---".toList) :: preW) ++ (( "title:".toList)
        ++ (tv ++ '\n' :: linesOf (midW ++ ( "cover:".toList ++ cv)
          :: (postW ++ [( "---".toList)])))) := by
    simp [linesOf, List.append_assoc]
  rw [hshape1, keyedLineSub (titleLineMatch title) ( "title:".toList)
    ( "title: ".toList ++ title) (by decide) (by decide) (fun s => rfl)
    (( "---".toList) :: preW)
    (midW ++ ( "cover:".toList ++ cv) :: (postW ++ [( "---".toList)]))
    tv hpres1 hposts1 htv htvs]
  have hpres2 : ∀ w ∈ (( "---".toList) :: (preW ++ ( "title: ".toList ++ title)
      :: midW)), '\n' ∉ w ∧ hasSubstr ( "cover:".toList) w = false := by
    intro w hw
    simp only [List.mem_cons, List.mem_append] at hw
    rcases hw with rfl | hw | rfl | hw
    · exact ⟨by decide, by decide⟩
    · exact ⟨(hpre w hw).1, (hpre w hw).2.2.1⟩
    · refine ⟨?_, hct⟩
      intro hc
      rcases List.mem_append.mp hc with hc | hc
      · revert hc; decide
      · exact hti hc
    · exact ⟨(hmid w hw).1, (hmid w hw).2.2.1⟩
  have hposts2 : ∀ w ∈ (postW ++ [( "---".toList)]),
      '\n' ∉ w ∧ hasSubstr ( "cover:".toList) w = false := by
    intro w hw
    rcases List.mem_append.mp hw with hw | hw
    · exact ⟨(hpost w hw).1, (hpost w hw).2.2.1⟩
    · rcases List.mem_singleton.mp hw with rfl
      exact ⟨by decide, by decide⟩
  have hshape2 : linesOf (( "---".toList) :: preW) ++ (( "title: ".toList ++ title)
      ++ '\n' :: linesOf (midW ++ ( "cover:".toList ++ cv)
        :: (postW ++ [( "---".toList)])))
      = linesOf (( "---".toList) :: (preW ++ ( "title: ".toList ++ title) :: midW))
        ++ (( "cover:".toList) ++ (cv ++ '\n'
          :: linesOf (postW ++ [( "---".toList)]))) := by
    simp [linesOf, List.append_assoc]
  rw [hshape2, keyedLineSub
    (coverLineMatch (y ++ '/' :: (mo ++ '/' :: (fn ++ ( "/cover.jpg".toList)))))
    ( "cover:".toList)
    ( "cover: ".toList ++ (y ++ '/' :: (mo ++ '/' :: (fn ++ ( "/cover.jpg".toList)))))
    (by decide) (by decide) (fun s => rfl)
    (( "---".toList) :: (preW ++ ( "title: ".toList ++ title) :: midW))
    (postW ++ [( "---".toList)]) cv hpres2 hposts2 hcv hcvs]
  congr 1
  simp [linesOf, List.append_assoc]

/-- C8 witness: a concrete well-formed file — a `layout:` line, a `title:`
line, a `date:` line, a `cover:` line — has exactly its `title:` and
`cover:` values rewritten. -/
theorem C8_front_matter_witness :
    validDate (digitsToNat ( "2024".toList)) (digitsToNat ( "05".toList))
      (digitsToNat ( "06".toList)) = true
    ∧ change_front_matter
        (linesOf (( "---".toList) :: ([( "layout: post".toList)]
          ++ ( "title:".toList ++ ( " old".toList))
          :: ([( "date: 2024-05-06".toList)]
            ++ ( "cover:".toList ++ ( " c".toList))
            :: (([] : List (List Char)) ++ [( "---".toList)]))))
          ++ ( "Hello\n".toList)) ( "np".toList) ( "New".toList)
      = Except.ok
        (linesOf (( "---".toList) :: ([( "layout: post".toList)]
          ++ ( "title: ".toList ++ ( "New".toList))
          :: ([( "date: 2024-05-06".toList)]
            ++ ( "cover: ".toList ++ (( "2024".toList) ++ '/'
              :: (( "05".toList) ++ '/' :: (( "np".toList)
                ++ ( "/cover.jpg".toList)))))
            :: (([] : List (List Char)) ++ [( "---".toList)]))))
          ++ ( "Hello\n".toList)) :=
  ⟨by decide, C8_front_matter_amended [( "layout: post".toList)]
    [( "date: 2024-05-06".toList)] [] ( " old".toList) ( " c".toList)
    ( "Hello\n".toList) ( "np".toList) ( "New".toList) ( "2024".toList)
    ( "05".toList) ( "06".toList) (by decide) (by decide) (by decide)
    (by decide) (by decide) (by decide) (by decide) (by decide) (by decide)
    (by decide) (by decide) (by decide)⟩

/-! ### `new_draft` (C9) -/

/-- C9: when a draft directory with the normalized filename already
exists, `new_draft` fails with the already-exists error and leaves the
whole state — in particular the existing draft's files — unchanged, apart
from having (re-)made the auxiliary directories. -/
theorem C9_collision (isWord : Char → Bool) (lowerc : Char → Char)
    (gen : List Char → Option (List Char)) (genStray : Bool)
    (T fn : List Char) (fs : FS)
    (h1 : fs.hasSourcePosts = true)
    (h2 : title2filename isWord lowerc T = TitleResult.ok fn ∨
          title2filename isWord lowerc T = TitleResult.warn fn)
    (h3 : (fs.drafts.lookup fn).isSome = true) :
    new_draft isWord lowerc gen genStray T fs
      = ({ fs with auxDirsMade := true }, some DraftErr.alreadyExists) := by
  rw [new_draft, h1]
  rw [if_neg (by decide)]
  rcases h2 with h2 | h2
  · rw [h2]
    dsimp only
    rw [if_pos h3]
  · rw [h2]
    dsimp only
    rw [if_pos h3]

/-- C9 witness: a state holding the draft `my-post` rejects a second
creation whose title normalizes to the same name, leaving it unchanged. -/
theorem C9_collision_witness :
    ((FS.mk true [] [] [(( "my-post".toList),
        [(( "my-post".toList), ( "x".toList))])] false).drafts.lookup
      ( "my-post".toList)).isSome = true
    ∧ new_draft asciiIsWord asciiLower (fun _ => none) false
        ( "My Post".toList)
        (FS.mk true [] [] [(( "my-post".toList),
          [(( "my-post".toList), ( "x".toList))])] false)
      = (FS.mk true [] [] [(( "my-post".toList),
          [(( "my-post".toList), ( "x".toList))])] true,
        some DraftErr.alreadyExists) :=
  ⟨by decide, C9_collision asciiIsWord asciiLower (fun _ => none) false
    ( "My Post".toList) ( "my-post".toList) _ (by decide)
    (Or.inl (by decide)) (by decide)⟩
